import Mathlib

/-!
# Tone-mapping pass of the path tracer window (`pt_pathtracer.cpp`)

A shallow embedding of `loadObjFile`, `PathTracerWindow::Uncharted2Tonemap` and the
framebuffer loop of `PathTracerWindow::onIdle`.

The `float` code is embedded in two readings.

* The exact reading (`Color`, `PathTracerWindow.toneMap`, ...): a finite `float` is the rational
  number it denotes, a decimal literal such as `0.15f` is that decimal, and `+`, `-`, `*` are
  exact. A division whose divisor is zero has no finite result (IEEE gives an infinity or a
  NaN); it is modelled by `none`, and `none` propagates through the rest of the pixel
  computation. `pow(x, 1/2.2f)` is the real power for `x ≥ 0` and has no finite result for
  `x < 0`. This reading states which expression the code evaluates on which data.
* The binary32 reading (`F32`, `Color32`, namespace `PathTracerWindow.Binary32`): every literal
  and every operation is rounded to binary32, round to nearest, ties to even, with subnormal
  numbers, overflow to an infinity, and NaN. Each operation is rounded on its own (no fused
  multiply-add, no wider intermediate format). The sign of a zero is not tracked. `pow` gives
  the real power, which the library rounds to binary32. This reading states ranges and order of
  the values the program computes.

`renderer.samples` is the list of the `color` fields of its cells; the image is represented by
the sequence of `image.setPixel` calls made by the pass.
-/

/-- The enumeration `ToneMapping` of the source. -/
inductive ToneMapping where
  | LINEAR
  | GLOBAL_REINHARD
  | UNCHARTED_2
  deriving DecidableEq, Repr

/-- A colour with `float` components `r`, `g`, `b`. -/
structure Color where
  r : ℚ
  g : ℚ
  b : ℚ
  deriving DecidableEq

instance : Inhabited Color := ⟨⟨0, 0, 0⟩⟩

/-- Float division: no finite result when the divisor is zero. -/
def fdiv (a b : ℚ) : Option ℚ :=
  if b = 0 then none else some (a / b)

/-- The scalar `clamp(x, minVal, maxVal) = min(max(x, minVal), maxVal)`. -/
def clampf (x minVal maxVal : ℚ) : ℚ :=
  min (max x minVal) maxVal

/-- Component-wise `clamp(color, minVal, maxVal)`. -/
def clamp (color : Color) (minVal maxVal : ℚ) : Color :=
  ⟨clampf color.r minVal maxVal, clampf color.g minVal maxVal, clampf color.b minVal maxVal⟩

/-- The arguments `r`, `g`, `b` of one `image.setPixel(x, y, r, g, b)` call. -/
structure Pixel where
  r : ℝ
  g : ℝ
  b : ℝ

/-- The function `pow(x, p)` of the C library on a non-integral exponent: the real power of a
non-negative base, no finite result for a negative base. -/
noncomputable def powf (x p : ℚ) : Option ℝ :=
  if x < 0 then none else some ((x : ℝ) ^ (p : ℝ))

namespace PathTracerWindow

/-- Constant `A` of the Uncharted tone mapper. -/
def A : ℚ := 0.15
/-- Constant `B` of the Uncharted tone mapper. -/
def B : ℚ := 0.50
/-- Constant `C` of the Uncharted tone mapper. -/
def C : ℚ := 0.10
/-- Constant `D` of the Uncharted tone mapper. -/
def D : ℚ := 0.20
/-- Constant `E` of the Uncharted tone mapper. -/
def E : ℚ := 0.02
/-- Constant `F` of the Uncharted tone mapper. -/
def F : ℚ := 0.30
/-- White point `W` of the Uncharted tone mapper. -/
def W : ℚ := 11.2
/-- Constant `ExposureBias`. -/
def ExposureBias : ℚ := 2.0

/-- One channel of `Uncharted2Tonemap`:
`((x*(A*x+C*B)+D*E)/(x*(A*x+B)+D*F))-E/F`. -/
def Uncharted2TonemapChannel (x : ℚ) : Option ℚ := do
  let q ← fdiv (x * (A * x + C * B) + D * E) (x * (A * x + B) + D * F)
  let e ← fdiv E F
  pure (q - e)

/-- The member `Color Uncharted2Tonemap(Color x)`; the vector expression acts on each
channel. -/
def Uncharted2Tonemap (x : Color) : Option Color := do
  let r ← Uncharted2TonemapChannel x.r
  let g ← Uncharted2TonemapChannel x.g
  let b ← Uncharted2TonemapChannel x.b
  pure ⟨r, g, b⟩

/-- The weighted sum `0.212671f * color.r + 0.71516f * color.g + 0.072169f * color.b`. -/
def luminanceOf (color : Color) : ℚ :=
  0.212671 * color.r + 0.71516 * color.g + 0.072169 * color.b

/-- Lines 170-200 of `onIdle`: from the sample colour as read from the buffer to the value of
`visible` that reaches the gamma correction. `color` is the cell content before the clamp. -/
def toneMap (mode : ToneMapping) (color : Color) : Option Color :=
  let visible : Color := ⟨color.r, color.g, color.b⟩
  -- Exposure
  let visible : Color := ⟨visible.r * 16.0, visible.g * 16.0, visible.b * 16.0⟩
  -- Clamp
  let color := clamp color 0.0 1.0
  match mode with
  | ToneMapping.GLOBAL_REINHARD => do
    let luminance := luminanceOf color
    let luminanceD ← fdiv luminance (1.0 + luminance)
    let r ← fdiv (luminanceD * visible.r) luminance
    let g ← fdiv (luminanceD * visible.g) luminance
    let b ← fdiv (luminanceD * visible.b) luminance
    pure ⟨r, g, b⟩
  | ToneMapping.LINEAR => some visible
  | ToneMapping.UNCHARTED_2 => do
    let visible ← Uncharted2Tonemap
      ⟨ExposureBias * visible.r, ExposureBias * visible.g, ExposureBias * visible.b⟩
    let white ← Uncharted2Tonemap ⟨W, W, W⟩
    let wr ← fdiv 1.0 white.r
    let wg ← fdiv 1.0 white.g
    let wb ← fdiv 1.0 white.b
    let whiteScale : Color := ⟨wr, wg, wb⟩
    pure ⟨visible.r * whiteScale.r, visible.g * whiteScale.g, visible.b * whiteScale.b⟩

/-- The exponent `powVal = 1/2.2f`. -/
def powVal : ℚ := 1 / 2.2

/-- Lines 202-206 of `onIdle`: gamma correction of the three channels. -/
noncomputable def gammaCorrect (visible : Color) : Option Pixel := do
  let r ← powf visible.r powVal
  let g ← powf visible.g powVal
  let b ← powf visible.b powVal
  pure ⟨r, g, b⟩

/-- The three colour arguments of the `image.setPixel` call of one pixel, from the cell content
read; `none` when a channel has no finite value. -/
noncomputable def displayColor (mode : ToneMapping) (color : Color) : Option Pixel :=
  toneMap mode color >>= gammaCorrect

/-- One `image.setPixel(x, y, r, g, b)` call. -/
structure SetPixelCall where
  x : Nat
  y : Nat
  value : Option Pixel

/-- The state the framebuffer loop works on: the colours of `renderer.samples` and the
`image.setPixel` calls made so far. -/
structure PassState where
  samples : List Color
  calls : List SetPixelCall

/-- The index expression `image.width*y+x`. The `int` arithmetic is taken without wrap-around:
for a pixel of the image the value is below `width*height`, the number of cells of the buffer. -/
def cellIndex (width y x : Nat) : Nat :=
  width * y + x

/-- The body of the inner loop of `onIdle` (lines 170-208). `color` is a reference into the
sample buffer, so the assignment `color = clamp(color, 0.0f, 1.0f)` stores into the cell. An index
outside the buffer, which does not occur on a buffer of `width*height` cells, reads the default
colour and stores nothing. -/
noncomputable def pixelBody (mode : ToneMapping) (width y : Nat) (st : PassState) (x : Nat) :
    PassState :=
  let i := cellIndex width y x
  let color := st.samples.getD i default
  { samples := st.samples.set i (clamp color 0.0 1.0)
    calls := st.calls ++ [⟨x, y, displayColor mode color⟩] }

/-- The inner loop `for (int x = 0; x < image.width; ++x)`. -/
noncomputable def rowLoop (mode : ToneMapping) (width : Nat) (st : PassState) (y : Nat) :
    PassState :=
  (List.range width).foldl (pixelBody mode width y) st

/-- The framebuffer loop of `onIdle` (lines 163-210) on an image of the given width and height,
started on the sample colours left by `renderer.render()`. -/
noncomputable def onIdle (mode : ToneMapping) (width height : Nat) (samples : List Color) :
    PassState :=
  (List.range height).foldl (rowLoop mode width) ⟨samples, []⟩

end PathTracerWindow

/-- A `glm::vec3` position. -/
structure Vec3 where
  x : ℚ
  y : ℚ
  z : ℚ
  deriving DecidableEq

/-- The materials named in the source through their factory functions. -/
inductive Material where
  | White | Red | Green | Gray | Light | Blue | Cyan
  deriving DecidableEq, Repr

/-- A `Triangle(v1, v2, v3, material)`. -/
structure Triangle where
  v1 : Vec3
  v2 : Vec3
  v3 : Vec3
  material : Material
  deriving DecidableEq

/-- The part of `tinyobj::mesh_t` that `loadObjFile` reads. -/
structure Mesh where
  positions : List ℚ
  indices : List Nat

/-- The part of `tinyobj::shape_t` that `loadObjFile` reads. -/
structure Shape where
  mesh : Mesh

/-- The loop scheme `for (int i = 0; i < n; ++i) out.emplace_back(body(i));` on an initially
empty vector `out`; `none` as soon as one iteration has no result. -/
def forCollect {α : Type} (n : Nat) (body : Nat → Option α) : Option (List α) :=
  match n with
  | 0 => some []
  | k + 1 => do
    let out ← forCollect k body
    let a ← body k
    pure (out ++ [a])

/-- The body of the second loop of `loadObjFile`: the vertex for index slot `k`, scaled by 75
and moved by (2,-10,0). An index outside `positions` or a slot outside `indices` is an
out-of-bounds read. -/
def loadVertex (positions : List Vec3) (indices : List Nat) (k : Nat) : Option Vec3 := do
  let idx ← indices[k]?
  let p ← positions[idx]?
  pure ⟨p.x * 75 + 2, p.y * 75 - 10, p.z * 75⟩

/-- The function `loadObjFile`, applied to what `tinyobj::LoadObj` delivered for the file: the
vector `shapes` and the string `err` (which the function never inspects). The result is the
returned vector; `none` stands for an out-of-bounds read of a vector (undefined behaviour),
which is not an error signalled to the caller. -/
def loadObjFile (shapes : List Shape) (_err : String) : Option (List Triangle) := do
  -- Will only convert 1st shape to Faces
  let shape ← shapes[0]?
  let mesh := shape.mesh
  -- Collect data in vectors
  let positions ← forCollect (mesh.positions.length / 3) (fun i => do
    let px ← mesh.positions[3 * i]?
    let py ← mesh.positions[3 * i + 1]?
    let pz ← mesh.positions[3 * i + 2]?
    pure (⟨px, py, pz⟩ : Vec3))
  -- Fill the vector of Faces with data
  forCollect (mesh.indices.length / 3) (fun i => do
    let v1 ← loadVertex positions mesh.indices (i * 3)
    let v2 ← loadVertex positions mesh.indices (i * 3 + 1)
    let v3 ← loadVertex positions mesh.indices (i * 3 + 2)
    pure (⟨v1, v2, v3, Material.Cyan⟩ : Triangle))

/-- The objects the constructor hands to `renderer.add`. -/
inductive SceneObject where
  | Box (min max : Vec3) (material : Material)
  | Sphere (radius : ℚ) (center : Vec3) (material : Material)
  | MeshObject (triangles : List Triangle) (flag : Bool)
  deriving DecidableEq

/-- Modelled from the spec: `Renderer::add`, which is not among the sources; the scene is a
collection of primitives and adding one appends it. -/
def Renderer.add (scene : List SceneObject) (object : SceneObject) : List SceneObject :=
  scene ++ [object]

/-! ## Binary32 arithmetic -/

/-- Round half to even, to an integer. -/
def rne (q : ℚ) : ℤ :=
  if q - ⌊q⌋ < 1 / 2 then ⌊q⌋
  else if 1 / 2 < q - ⌊q⌋ then ⌊q⌋ + 1
  else if ⌊q⌋ % 2 = 0 then ⌊q⌋ else ⌊q⌋ + 1

/-- Binary logarithm of a natural number by repeated halving, at most `fuel` times. -/
def log2Aux : Nat → Nat → Nat
  | 0, _ => 0
  | fuel + 1, n => if n < 2 then 0 else log2Aux fuel (n / 2) + 1

/-- The number `⌊log₂ n⌋` for `n ≥ 1`. -/
def nlog2 (n : Nat) : Nat := log2Aux n n

/-- The integer `⌊log₂ |q|⌋` of a non-zero rational. -/
def flog2 (q : ℚ) : ℤ :=
  let e : ℤ := (nlog2 q.num.natAbs : ℤ) - (nlog2 q.den : ℤ)
  if (2 : ℚ) ^ e ≤ |q| then e else e - 1

/-- The exponent of the binade of `q`, at least that of the subnormal numbers. -/
def expo (q : ℚ) : ℤ := max (flog2 q) (-126)

/-- The spacing of the binary32 numbers around `q`. -/
def ulp (q : ℚ) : ℚ := 2 ^ (expo q - 23)

/-- The nearest multiple of the spacing, ties to even: binary32 rounding without the overflow
threshold. -/
def rnd (q : ℚ) : ℚ := (rne (q / ulp q) : ℚ) * ulp q

/-- The unit roundoff of binary32. -/
def u32 : ℚ := 1 / 2 ^ 24

/-- Half of the smallest subnormal number: the absolute rounding error in the subnormal range. -/
def eta32 : ℚ := 1 / 2 ^ 150

/-- A binary32 value: a finite number, an infinity or a NaN. The sign of a zero is not tracked; a
zero divisor counts as `+0`, which is the only zero this program divides by. -/
inductive F32 where
  | fin (q : ℚ)
  | pinf
  | ninf
  | nan
  deriving DecidableEq

/-- Rounding of an exact result to binary32: round to nearest, ties to even, overflow to an
infinity. -/
def round32 (q : ℚ) : F32 :=
  if 2 ^ 128 ≤ |rnd q| then (if q < 0 then F32.ninf else F32.pinf) else F32.fin (rnd q)

namespace F32

/-- Negation. -/
def neg : F32 → F32
  | fin a => fin (-a)
  | pinf => ninf
  | ninf => pinf
  | nan => nan

/-- IEEE addition. -/
def add : F32 → F32 → F32
  | fin a, fin b => round32 (a + b)
  | fin _, pinf => pinf
  | fin _, ninf => ninf
  | pinf, fin _ => pinf
  | pinf, pinf => pinf
  | ninf, fin _ => ninf
  | ninf, ninf => ninf
  | _, _ => nan

/-- IEEE subtraction. -/
def sub (a b : F32) : F32 := add a (neg b)

/-- IEEE multiplication. -/
def mul : F32 → F32 → F32
  | fin a, fin b => round32 (a * b)
  | fin a, pinf => if a = 0 then nan else if 0 < a then pinf else ninf
  | fin a, ninf => if a = 0 then nan else if 0 < a then ninf else pinf
  | pinf, fin b => if b = 0 then nan else if 0 < b then pinf else ninf
  | ninf, fin b => if b = 0 then nan else if 0 < b then ninf else pinf
  | pinf, pinf => pinf
  | pinf, ninf => ninf
  | ninf, pinf => ninf
  | ninf, ninf => pinf
  | _, _ => nan

/-- IEEE division. -/
def div : F32 → F32 → F32
  | fin a, fin b =>
    if b = 0 then (if a = 0 then nan else if 0 < a then pinf else ninf) else round32 (a / b)
  | fin _, pinf => fin 0
  | fin _, ninf => fin 0
  | pinf, fin b => if 0 ≤ b then pinf else ninf
  | ninf, fin b => if 0 ≤ b then ninf else pinf
  | _, _ => nan

/-- The comparison `a < b`, false when an operand is a NaN. -/
def lt : F32 → F32 → Bool
  | fin a, fin b => decide (a < b)
  | fin _, pinf => true
  | ninf, fin _ => true
  | ninf, pinf => true
  | _, _ => false

instance : Add F32 := ⟨add⟩
instance : Sub F32 := ⟨sub⟩
instance : Mul F32 := ⟨mul⟩
instance : Div F32 := ⟨div⟩

end F32

/-- A colour with binary32 components. -/
structure Color32 where
  r : F32
  g : F32
  b : F32
  deriving DecidableEq

/-- The value of a `float` passed to `image.setPixel`: a NaN, `+inf`, or a number. The number is
the real value of the power that the library rounds to binary32. -/
inductive Shown where
  | nan
  | pinf
  | val (v : ℝ)

/-- The three colour arguments of an `image.setPixel` call in binary32 arithmetic. -/
structure Pixel32 where
  r : Shown
  g : Shown
  b : Shown

namespace PathTracerWindow

namespace Binary32

/-- The constant `A = 0.15` as a `float`. -/
def A : F32 := round32 0.15
/-- The constant `B = 0.50` as a `float`. -/
def B : F32 := round32 0.50
/-- The constant `C = 0.10` as a `float`. -/
def C : F32 := round32 0.10
/-- The constant `D = 0.20` as a `float`. -/
def D : F32 := round32 0.20
/-- The constant `E = 0.02` as a `float`. -/
def E : F32 := round32 0.02
/-- The constant `F = 0.30` as a `float`. -/
def F : F32 := round32 0.30
/-- The constant `W = 11.2` as a `float`. -/
def W : F32 := round32 11.2
/-- The constant `ExposureBias = 2.0f`. -/
def ExposureBias : F32 := round32 2.0

/-- One channel of `Uncharted2Tonemap` in binary32 arithmetic, every operation rounded:
`((x*(A*x+C*B)+D*E)/(x*(A*x+B)+D*F))-E/F`. -/
def Uncharted2TonemapChannel (x : F32) : F32 :=
  ((x * (A * x + C * B) + D * E) / (x * (A * x + B) + D * F)) - E / F

/-- The member `Color Uncharted2Tonemap(Color x)` in binary32 arithmetic. -/
def Uncharted2Tonemap (x : Color32) : Color32 :=
  ⟨Uncharted2TonemapChannel x.r, Uncharted2TonemapChannel x.g, Uncharted2TonemapChannel x.b⟩

/-- The function `glm::max(x, y) = (x < y) ? y : x`. -/
def fmax (x y : F32) : F32 := if F32.lt x y then y else x

/-- The function `glm::min(x, y) = (y < x) ? y : x`. -/
def fmin (x y : F32) : F32 := if F32.lt y x then y else x

/-- The scalar `clamp(x, minVal, maxVal) = min(max(x, minVal), maxVal)`. -/
def clampf (x minVal maxVal : F32) : F32 := fmin (fmax x minVal) maxVal

/-- Component-wise `clamp(color, minVal, maxVal)`. -/
def clamp (color : Color32) (minVal maxVal : F32) : Color32 :=
  ⟨clampf color.r minVal maxVal, clampf color.g minVal maxVal, clampf color.b minVal maxVal⟩

/-- The sum `0.212671f * color.r + 0.71516f * color.g + 0.072169f * color.b`, each product and
each sum rounded. -/
def luminanceOf (color : Color32) : F32 :=
  round32 0.212671 * color.r + round32 0.71516 * color.g + round32 0.072169 * color.b

/-- Lines 170-200 of `onIdle` in binary32 arithmetic: from the cell content read to the value of
`visible` that reaches the gamma correction. -/
def toneMap (mode : ToneMapping) (color : Color32) : Color32 :=
  let visible : Color32 := ⟨color.r, color.g, color.b⟩
  -- Exposure
  let visible : Color32 :=
    ⟨visible.r * round32 16.0, visible.g * round32 16.0, visible.b * round32 16.0⟩
  -- Clamp
  let color := clamp color (round32 0.0) (round32 1.0)
  match mode with
  | ToneMapping.GLOBAL_REINHARD =>
    let luminance := luminanceOf color
    let luminanceD := luminance / (round32 1.0 + luminance)
    ⟨luminanceD * visible.r / luminance, luminanceD * visible.g / luminance,
      luminanceD * visible.b / luminance⟩
  | ToneMapping.LINEAR => visible
  | ToneMapping.UNCHARTED_2 =>
    let visible := Uncharted2Tonemap
      ⟨ExposureBias * visible.r, ExposureBias * visible.g, ExposureBias * visible.b⟩
    let white := Uncharted2Tonemap ⟨W, W, W⟩
    let whiteScale : Color32 :=
      ⟨round32 1.0 / white.r, round32 1.0 / white.g, round32 1.0 / white.b⟩
    ⟨visible.r * whiteScale.r, visible.g * whiteScale.g, visible.b * whiteScale.b⟩

/-- The exponent `powVal = 1/2.2f`, a `float` division. -/
def powVal : F32 := round32 1 / round32 2.2

/-- The library function `pow(x, p)` for a finite positive exponent `p` that is not an integer:
NaN for a negative base, `+inf` for an infinite base. -/
noncomputable def pow (x p : F32) : Shown :=
  match x, p with
  | F32.fin a, F32.fin e => if a < 0 then Shown.nan else Shown.val ((a : ℝ) ^ (e : ℝ))
  | F32.pinf, F32.fin _ => Shown.pinf
  | F32.ninf, F32.fin _ => Shown.pinf
  | _, _ => Shown.nan

/-- Lines 202-206 of `onIdle`: gamma correction of the three channels. -/
noncomputable def gammaCorrect (visible : Color32) : Pixel32 :=
  ⟨pow visible.r powVal, pow visible.g powVal, pow visible.b powVal⟩

/-- The three colour arguments of the `image.setPixel` call of one pixel in binary32
arithmetic. -/
noncomputable def displayColor (mode : ToneMapping) (color : Color32) : Pixel32 :=
  gammaCorrect (toneMap mode color)

end Binary32

end PathTracerWindow

/-- The value is not a negative number: a NaN, `+inf`, or a number that is at least 0. -/
def Shown.NotNegative : Shown → Prop
  | Shown.nan => True
  | Shown.pinf => True
  | Shown.val v => 0 ≤ v

/-- The value is a number in the closed interval [0,1]. -/
def Shown.InUnit (s : Shown) : Prop :=
  ∃ v : ℝ, s = Shown.val v ∧ 0 ≤ v ∧ v ≤ 1

/-- The value is a NaN or a number in [0,1]. -/
def Shown.NanOrUnit (s : Shown) : Prop :=
  s = Shown.nan ∨ s.InUnit

namespace PathTracerWindow

/-- The scene preparation of the constructor `PathTracerWindow()` (lines 99-134), applied to
what `tinyobj::LoadObj` delivered for `bunny.obj`; the result is the scene of the renderer. -/
def PathTracerWindow (shapes : List Shape) (err : String) : Option (List SceneObject) := do
  let scene : List SceneObject := []
  -- Boxes
  let scene := Renderer.add scene (SceneObject.Box ⟨-10, -11, -10⟩ ⟨10, -10, 20⟩ Material.White)
  let scene := Renderer.add scene (SceneObject.Box ⟨-11, -10, -10⟩ ⟨-10, 10, 20⟩ Material.Red)
  let scene := Renderer.add scene (SceneObject.Box ⟨10, -10, -10⟩ ⟨11, 10, 20⟩ Material.Green)
  let scene := Renderer.add scene (SceneObject.Box ⟨-10, -10, -11⟩ ⟨10, 10, -10⟩ Material.Gray)
  let scene := Renderer.add scene (SceneObject.Box ⟨-10, -10, 20⟩ ⟨10, 10, 21⟩ Material.Gray)
  let scene := Renderer.add scene (SceneObject.Box ⟨-10, 10, -10⟩ ⟨10, 11, 20⟩ Material.Gray)
  -- Spheres
  let scene := Renderer.add scene (SceneObject.Sphere 1 ⟨-5, -7, 3⟩ Material.Light)
  let scene := Renderer.add scene (SceneObject.Sphere 10 ⟨10, 10, -10⟩ Material.Blue)
  -- Standford Bunny
  let triangles ← loadObjFile shapes err
  let bunny := SceneObject.MeshObject triangles true
  pure (Renderer.add scene bunny)

/-- The filmic curve as the specification writes it,
`f(x) = ((x(Ax+CB)+DE)/(x(Ax+B)+DF)) - E/F`, as a total function of rationals. -/
def specCurve (x : ℚ) : ℚ :=
  (x * (A * x + C * B) + D * E) / (x * (A * x + B) + D * F) - E / F

/-- The Reinhard transform as the specification writes it: luminance `L` of the colour,
`L' = L/(1+L)`, each channel of that colour rescaled by `L'/L`. -/
def specReinhard (color : Color) : Color :=
  let L := luminanceOf color
  let L' := L / (1 + L)
  ⟨color.r * (L' / L), color.g * (L' / L), color.b * (L' / L)⟩

/-- The sample colours with the first `n` cells clamped to [0,1]: the buffer content after the
pass has handled the cells `0 .. n-1`. -/
def clampUpTo : Nat → List Color → List Color
  | 0, s => s
  | _ + 1, [] => []
  | n + 1, c :: s => clamp c 0.0 1.0 :: clampUpTo n s

/-- The `image.setPixel` calls of row `y`, in terms of the sample colours before the pass. -/
noncomputable def rowCalls (mode : ToneMapping) (width : Nat) (samples : List Color) (y : Nat) :
    List SetPixelCall :=
  (List.range width).map
    (fun x => ⟨x, y, displayColor mode (samples.getD (cellIndex width y x) default)⟩)

/-! ## Auxiliary facts -/

theorem fdiv_of_ne (a : ℚ) {b : ℚ} (h : b ≠ 0) : fdiv a b = some (a / b) := by
  simp [fdiv, h]

theorem fdiv_zero (a : ℚ) : fdiv a 0 = none := by
  simp [fdiv]

theorem not_isSquare_2140 : ¬ IsSquare (2140 : ℕ) := by
  rintro ⟨r, hr⟩
  have h47 : r < 47 := by nlinarith
  interval_cases r <;> omega

theorem rat_sq_ne_2140 (q : ℚ) : q * q ≠ 2140 := by
  intro h
  have hsq : IsSquare ((2140 : ℕ) : ℚ) := ⟨q, by push_cast; exact h.symm⟩
  rw [Rat.isSquare_natCast_iff] at hsq
  exact not_isSquare_2140 hsq

/-- The denominator of the curve has no rational root. -/
theorem curve_den_ne_zero (x : ℚ) : x * (A * x + B) + D * F ≠ 0 := by
  intro h
  apply rat_sq_ne_2140 (30 * x + 50)
  simp only [A, B, D, F] at h
  norm_num at h
  nlinarith

theorem curve_den_pos {x : ℚ} (hx : 0 ≤ x) : 0 < x * (A * x + B) + D * F := by
  simp only [A, B, D, F]
  norm_num
  nlinarith [mul_nonneg hx hx]

theorem F_ne_zero : F ≠ 0 := by
  norm_num [F]

/-- The channel function of the code is total and computes the curve of the specification. -/
theorem channel_eq_specCurve (x : ℚ) : Uncharted2TonemapChannel x = some (specCurve x) := by
  simp [Uncharted2TonemapChannel, specCurve, fdiv_of_ne _ (curve_den_ne_zero x),
    fdiv_of_ne _ F_ne_zero]

theorem tonemap_eq_specCurve (x : Color) :
    Uncharted2Tonemap x = some ⟨specCurve x.r, specCurve x.g, specCurve x.b⟩ := by
  simp [Uncharted2Tonemap, channel_eq_specCurve]

theorem specCurve_W : specCurve W = 66556 / 91785 := by
  norm_num [specCurve, A, B, C, D, E, F, W]

theorem specCurve_W_pos : 0 < specCurve W := by
  rw [specCurve_W]; norm_num

theorem specCurve_W_ne_zero : specCurve W ≠ 0 :=
  ne_of_gt specCurve_W_pos

theorem specCurve_zero : specCurve 0 = 0 := by
  norm_num [specCurve, D, E, F]

/-- The curve in the form `1 - g(x)/den(x) - E/F` used for the order proofs. -/
theorem specCurve_mono {x y : ℚ} (hx : 0 ≤ x) (hxy : x ≤ y) : specCurve x ≤ specCurve y := by
  have hy : 0 ≤ y := le_trans hx hxy
  have dx := curve_den_pos hx
  have dy := curve_den_pos hy
  unfold specCurve
  have key : (x * (A * x + C * B) + D * E) / (x * (A * x + B) + D * F)
      ≤ (y * (A * y + C * B) + D * E) / (y * (A * y + B) + D * F) := by
    rw [div_le_div_iff₀ dx dy]
    simp only [A, B, C, D, E, F]
    norm_num
    nlinarith [mul_nonneg (sub_nonneg.mpr hxy) (mul_nonneg hx hy),
      mul_nonneg (sub_nonneg.mpr hxy) hx, mul_nonneg (sub_nonneg.mpr hxy) hy,
      sub_nonneg.mpr hxy]
  linarith

theorem specCurve_nonneg {x : ℚ} (hx : 0 ≤ x) : 0 ≤ specCurve x := by
  have h := specCurve_mono (le_refl (0 : ℚ)) hx
  rwa [specCurve_zero] at h

/-- The closed form of the Uncharted branch of `toneMap`. -/
theorem toneMap_uncharted (color : Color) :
    toneMap ToneMapping.UNCHARTED_2 color = some
      ⟨specCurve (ExposureBias * (color.r * 16)) * (1 / specCurve W),
       specCurve (ExposureBias * (color.g * 16)) * (1 / specCurve W),
       specCurve (ExposureBias * (color.b * 16)) * (1 / specCurve W)⟩ := by
  simp [toneMap, tonemap_eq_specCurve, fdiv_of_ne _ specCurve_W_ne_zero]
  norm_num

theorem clampf_unit_nonneg (x : ℚ) : 0 ≤ clampf x 0.0 1.0 := by
  unfold clampf
  norm_num

theorem clampf_unit_id {x : ℚ} (h0 : 0 ≤ x) (h1 : x ≤ 1) : clampf x 0.0 1.0 = x := by
  unfold clampf
  norm_num
  rw [max_eq_left h0, min_eq_left h1]

theorem clamp_unit_id {color : Color} (hr : 0 ≤ color.r ∧ color.r ≤ 1)
    (hg : 0 ≤ color.g ∧ color.g ≤ 1) (hb : 0 ≤ color.b ∧ color.b ≤ 1) :
    clamp color 0.0 1.0 = color := by
  cases color
  simp only [clamp] at *
  rw [clampf_unit_id hr.1 hr.2, clampf_unit_id hg.1 hg.2, clampf_unit_id hb.1 hb.2]

theorem luminance_clamp_nonneg (color : Color) : 0 ≤ luminanceOf (clamp color 0.0 1.0) := by
  have hr := clampf_unit_nonneg color.r
  have hg := clampf_unit_nonneg color.g
  have hb := clampf_unit_nonneg color.b
  simp only [luminanceOf, clamp]
  norm_num at *
  positivity

/-- The closed form of the Reinhard branch of `toneMap` when the divisor is not zero. -/
theorem toneMap_reinhard {color : Color} (h : luminanceOf (clamp color 0.0 1.0) ≠ 0) :
    toneMap ToneMapping.GLOBAL_REINHARD color = some
      ⟨luminanceOf (clamp color 0.0 1.0) / (1 + luminanceOf (clamp color 0.0 1.0))
          * (color.r * 16) / luminanceOf (clamp color 0.0 1.0),
       luminanceOf (clamp color 0.0 1.0) / (1 + luminanceOf (clamp color 0.0 1.0))
          * (color.g * 16) / luminanceOf (clamp color 0.0 1.0),
       luminanceOf (clamp color 0.0 1.0) / (1 + luminanceOf (clamp color 0.0 1.0))
          * (color.b * 16) / luminanceOf (clamp color 0.0 1.0)⟩ := by
  have h1 : (1.0 : ℚ) + luminanceOf (clamp color 0.0 1.0) ≠ 0 := by
    have := luminance_clamp_nonneg color
    norm_num at *
    linarith
  simp only [toneMap, fdiv_of_ne _ h1, fdiv_of_ne _ h]
  norm_num

/-- The Reinhard branch divides by the luminance of the clamped colour; when it is zero no
channel has a finite value. -/
theorem toneMap_reinhard_zero {color : Color} (h : luminanceOf (clamp color 0.0 1.0) = 0) :
    toneMap ToneMapping.GLOBAL_REINHARD color = none := by
  simp only [toneMap, h, fdiv_zero]
  simp [fdiv]

theorem toneMap_linear (color : Color) :
    toneMap ToneMapping.LINEAR color = some ⟨color.r * 16, color.g * 16, color.b * 16⟩ := by
  simp only [toneMap]
  norm_num

theorem powf_of_nonneg {x : ℚ} (hx : 0 ≤ x) (p : ℚ) : powf x p = some ((x : ℝ) ^ (p : ℝ)) := by
  simp [powf, not_lt.mpr hx]

theorem powVal_pos : (0 : ℝ) < ((powVal : ℚ) : ℝ) := by
  have : (0 : ℚ) < powVal := by norm_num [powVal]
  exact_mod_cast this

theorem gammaCorrect_of_nonneg {v : Color} (hr : 0 ≤ v.r) (hg : 0 ≤ v.g) (hb : 0 ≤ v.b) :
    gammaCorrect v = some ⟨(v.r : ℝ) ^ (powVal : ℝ), (v.g : ℝ) ^ (powVal : ℝ),
      (v.b : ℝ) ^ (powVal : ℝ)⟩ := by
  simp [gammaCorrect, powf_of_nonneg hr, powf_of_nonneg hg, powf_of_nonneg hb]

theorem gamma_nonneg {x : ℚ} (hx : 0 ≤ x) : (0 : ℝ) ≤ (x : ℝ) ^ (powVal : ℝ) :=
  Real.rpow_nonneg (by exact_mod_cast hx) _

theorem gamma_le_one {x : ℚ} (hx : 0 ≤ x) (h1 : x ≤ 1) : (x : ℝ) ^ (powVal : ℝ) ≤ 1 :=
  Real.rpow_le_one (by exact_mod_cast hx) (by exact_mod_cast h1) (le_of_lt powVal_pos)

theorem gamma_gt_one {x : ℚ} (h1 : 1 < x) : 1 < (x : ℝ) ^ (powVal : ℝ) :=
  Real.one_lt_rpow (by exact_mod_cast h1) powVal_pos

theorem clamp_literals (color : Color) : clamp color 0.0 1.0 = clamp color 0 1 := by
  norm_num

/-! ## LINEAR mode -/

/-- C7: in LINEAR mode the value that reaches the gamma correction is, in each channel, the
pixel's colour channel times the exposure constant 16 and nothing else, and the input colour
(0,0,0) is displayed as (0,0,0). -/
theorem linear_is_exposure_scale (color : Color) :
    toneMap ToneMapping.LINEAR color = some ⟨color.r * 16, color.g * 16, color.b * 16⟩
    ∧ displayColor ToneMapping.LINEAR ⟨0, 0, 0⟩ = some ⟨0, 0, 0⟩ := by
  refine ⟨toneMap_linear color, ?_⟩
  have hp : ((powVal : ℚ) : ℝ) ≠ 0 := ne_of_gt powVal_pos
  simp [displayColor, toneMap_linear, gammaCorrect, powf, Real.zero_rpow hp]

/-! ## GLOBAL_REINHARD mode -/

/-- C3: at the sample colour (0,0,0) in GLOBAL_REINHARD mode the luminance used as divisor is 0,
it is not clamped to a positive minimum, the division is by zero and the pixel gets no finite
colour (it is not black). -/
theorem reinhard_black_divides_by_zero :
    luminanceOf (clamp ⟨0, 0, 0⟩ 0 1) = 0
    ∧ fdiv (luminanceOf (clamp ⟨0, 0, 0⟩ 0 1) / (1 + luminanceOf (clamp ⟨0, 0, 0⟩ 0 1)) * (0 * 16))
        (luminanceOf (clamp ⟨0, 0, 0⟩ 0 1)) = none
    ∧ toneMap ToneMapping.GLOBAL_REINHARD ⟨0, 0, 0⟩ = none
    ∧ displayColor ToneMapping.GLOBAL_REINHARD ⟨0, 0, 0⟩ = none
    ∧ displayColor ToneMapping.GLOBAL_REINHARD ⟨0, 0, 0⟩ ≠ some ⟨0, 0, 0⟩ := by
  have h0 : luminanceOf (clamp ⟨0, 0, 0⟩ 0 1) = 0 := by
    norm_num [luminanceOf, clamp, clampf]
  have h0' : luminanceOf (clamp ⟨0, 0, 0⟩ 0.0 1.0) = 0 := by
    rw [clamp_literals]; exact h0
  have ht := toneMap_reinhard_zero h0'
  refine ⟨h0, ?_, ht, ?_, ?_⟩
  · rw [h0]; exact fdiv_zero _
  · simp [displayColor, ht]
  · simp [displayColor, ht]

theorem gammaCorrect_bounds {v : Color} (hr : 0 ≤ v.r) (hg : 0 ≤ v.g) (hb : 0 ≤ v.b) :
    ∃ p, gammaCorrect v = some p ∧ 0 ≤ p.r ∧ 0 ≤ p.g ∧ 0 ≤ p.b
      ∧ (v.r ≤ 1 → p.r ≤ 1) ∧ (v.g ≤ 1 → p.g ≤ 1) ∧ (v.b ≤ 1 → p.b ≤ 1)
      ∧ (1 < v.r → 1 < p.r) ∧ (1 < v.g → 1 < p.g) ∧ (1 < v.b → 1 < p.b) :=
  ⟨_, gammaCorrect_of_nonneg hr hg hb, gamma_nonneg hr, gamma_nonneg hg, gamma_nonneg hb,
    gamma_le_one hr, gamma_le_one hg, gamma_le_one hb, gamma_gt_one, gamma_gt_one, gamma_gt_one⟩

/-- At the colour (1,1,1), in the exact reading of the expressions, the red component handed to
`image.setPixel` is greater than 1 in each of the three modes. -/
theorem display_exceeds_one_exact :
    (∃ p, displayColor ToneMapping.LINEAR ⟨1, 1, 1⟩ = some p ∧ 1 < p.r)
    ∧ (∃ p, displayColor ToneMapping.GLOBAL_REINHARD ⟨1, 1, 1⟩ = some p ∧ 1 < p.r)
    ∧ (∃ p, displayColor ToneMapping.UNCHARTED_2 ⟨1, 1, 1⟩ = some p ∧ 1 < p.r) := by
  have hlin : toneMap ToneMapping.LINEAR ⟨1, 1, 1⟩ = some ⟨16, 16, 16⟩ := by
    rw [toneMap_linear]; norm_num
  have hc : clamp ⟨1, 1, 1⟩ 0.0 1.0 = ⟨1, 1, 1⟩ := by
    norm_num [clamp, clampf]
  have hl : luminanceOf ⟨1, 1, 1⟩ = 1 := by
    norm_num [luminanceOf]
  have hrei : toneMap ToneMapping.GLOBAL_REINHARD ⟨1, 1, 1⟩ = some ⟨8, 8, 8⟩ := by
    rw [toneMap_reinhard (by rw [hc, hl]; norm_num), hc, hl]
    norm_num
  have h32 : specCurve (ExposureBias * ((1 : ℚ) * 16)) = 21584 / 25449 := by
    norm_num [specCurve, A, B, C, D, E, F, ExposureBias]
  have hunc : toneMap ToneMapping.UNCHARTED_2 ⟨1, 1, 1⟩
      = some ⟨165090620 / 141148637, 165090620 / 141148637, 165090620 / 141148637⟩ := by
    rw [toneMap_uncharted]
    simp only [h32, specCurve_W]
    norm_num
  refine ⟨?_, ?_, ?_⟩
  · obtain ⟨p, hp, -, -, -, -, -, -, hgt, -⟩ :=
      gammaCorrect_bounds (v := ⟨16, 16, 16⟩) (by norm_num) (by norm_num) (by norm_num)
    exact ⟨p, by simp [displayColor, hlin, hp], hgt (by norm_num)⟩
  · obtain ⟨p, hp, -, -, -, -, -, -, hgt, -⟩ :=
      gammaCorrect_bounds (v := ⟨8, 8, 8⟩) (by norm_num) (by norm_num) (by norm_num)
    exact ⟨p, by simp [displayColor, hrei, hp], hgt (by norm_num)⟩
  · obtain ⟨p, hp, -, -, -, -, -, -, hgt, -⟩ :=
      gammaCorrect_bounds
        (v := ⟨165090620 / 141148637, 165090620 / 141148637, 165090620 / 141148637⟩)
        (by norm_num) (by norm_num) (by norm_num)
    exact ⟨p, by simp [displayColor, hunc, hp], hgt (by norm_num)⟩

/-! ## The framebuffer loop -/

theorem clampUpTo_nil (n : Nat) : clampUpTo n [] = [] := by
  cases n <;> rfl

theorem getD_clampUpTo (i : Nat) (s : List Color) (d : Color) :
    (clampUpTo i s).getD i d = s.getD i d := by
  induction s generalizing i with
  | nil => rw [clampUpTo_nil]
  | cons c s ih =>
    cases i with
    | zero => rfl
    | succ i => simpa [clampUpTo] using ih i

theorem set_clampUpTo (i : Nat) (s : List Color) (d : Color) :
    (clampUpTo i s).set i (clamp (s.getD i d) 0.0 1.0) = clampUpTo (i + 1) s := by
  induction s generalizing i with
  | nil => simp [clampUpTo_nil]
  | cons c s ih =>
    cases i with
    | zero => simp [clampUpTo]
    | succ i => simpa [clampUpTo] using ih i

theorem clampUpTo_of_length_le {n : Nat} {s : List Color} (h : s.length ≤ n) :
    clampUpTo n s = s.map (fun c => clamp c 0.0 1.0) := by
  induction s generalizing n with
  | nil => rw [clampUpTo_nil]; rfl
  | cons c s ih =>
    cases n with
    | zero => simp at h
    | succ n =>
      simp only [clampUpTo, List.map_cons]
      rw [ih (by simpa using h)]

/-- One step of the loop body on the invariant of the pass. -/
theorem pixelBody_invariant (mode : ToneMapping) (width y x : Nat) (s : List Color)
    (cs : List SetPixelCall) :
    pixelBody mode width y ⟨clampUpTo (cellIndex width y x) s, cs⟩ x
      = ⟨clampUpTo (cellIndex width y x + 1) s,
          cs ++ [⟨x, y, displayColor mode (s.getD (cellIndex width y x) default)⟩]⟩ := by
  simp only [pixelBody]
  rw [getD_clampUpTo, set_clampUpTo]

/-- The inner loop after `n` iterations, started at the beginning of row `y`. -/
theorem rowLoop_steps (mode : ToneMapping) (width y n : Nat) (s : List Color)
    (cs : List SetPixelCall) :
    (List.range n).foldl (pixelBody mode width y) ⟨clampUpTo (width * y) s, cs⟩
      = ⟨clampUpTo (width * y + n) s,
          cs ++ (List.range n).map
            (fun x => ⟨x, y, displayColor mode (s.getD (cellIndex width y x) default)⟩)⟩ := by
  induction n with
  | zero => simp
  | succ n ih =>
    rw [List.range_succ, List.foldl_append, ih]
    simp only [List.foldl_cons, List.foldl_nil, List.map_append, List.map_cons, List.map_nil]
    have h := pixelBody_invariant mode width y n s
      (cs ++ (List.range n).map
        (fun x => ⟨x, y, displayColor mode (s.getD (cellIndex width y x) default)⟩))
    simp only [cellIndex] at h ⊢
    rw [h, List.append_assoc]
    rfl

theorem rowLoop_invariant (mode : ToneMapping) (width y : Nat) (s : List Color)
    (cs : List SetPixelCall) :
    rowLoop mode width ⟨clampUpTo (width * y) s, cs⟩ y
      = ⟨clampUpTo (width * (y + 1)) s, cs ++ rowCalls mode width s y⟩ := by
  rw [rowLoop, rowLoop_steps, Nat.mul_succ]
  rfl

/-- The state after `n` rows. -/
theorem onIdle_rows (mode : ToneMapping) (width n : Nat) (s : List Color) :
    (List.range n).foldl (rowLoop mode width) ⟨s, []⟩
      = ⟨clampUpTo (width * n) s, ((List.range n).map (rowCalls mode width s)).flatten⟩ := by
  induction n with
  | zero => simp [clampUpTo]
  | succ n ih =>
    rw [List.range_succ, List.foldl_append, ih]
    simp only [List.foldl_cons, List.foldl_nil]
    rw [rowLoop_invariant]
    simp

/-- The closed form of the pass. -/
theorem onIdle_eq (mode : ToneMapping) (width height : Nat) (s : List Color) :
    onIdle mode width height s
      = ⟨clampUpTo (width * height) s,
          ((List.range height).map (rowCalls mode width s)).flatten⟩ :=
  onIdle_rows mode width height s

theorem mem_onIdle_calls {mode : ToneMapping} {width height : Nat} {s : List Color}
    {c : SetPixelCall} :
    c ∈ (onIdle mode width height s).calls ↔
      ∃ y, y < height ∧ ∃ x, x < width ∧
        c = ⟨x, y, displayColor mode (s.getD (cellIndex width y x) default)⟩ := by
  rw [onIdle_eq]
  simp only [List.mem_flatten, List.mem_map, List.mem_range, rowCalls]
  constructor
  · rintro ⟨l, ⟨y, hy, rfl⟩, hc⟩
    rw [List.mem_map] at hc
    obtain ⟨x, hx, rfl⟩ := hc
    exact ⟨y, hy, x, List.mem_range.mp hx, rfl⟩
  · rintro ⟨y, hy, x, hx, rfl⟩
    exact ⟨_, ⟨y, hy, rfl⟩, List.mem_map.mpr ⟨x, List.mem_range.mpr hx, rfl⟩⟩

theorem cellIndex_lt {width height x y : Nat} (hx : x < width) (hy : y < height) :
    cellIndex width y x < width * height := by
  unfold cellIndex
  calc width * y + x < width * y + width := by omega
    _ = width * (y + 1) := by ring
    _ ≤ width * height := Nat.mul_le_mul_left _ hy

theorem cellIndex_inj {width x y x' y' : Nat} (hx : x < width) (hx' : x' < width)
    (h : cellIndex width y' x' = cellIndex width y x) : x' = x ∧ y' = y := by
  unfold cellIndex at h
  have hw : 0 < width := by omega
  have h1 : (width * y' + x') / width = (width * y + x) / width := by rw [h]
  have h2 : (width * y' + x') % width = (width * y + x) % width := by rw [h]
  rw [Nat.mul_add_div hw, Nat.mul_add_div hw, Nat.div_eq_of_lt hx, Nat.div_eq_of_lt hx'] at h1
  rw [Nat.mul_add_mod, Nat.mul_add_mod, Nat.mod_eq_of_lt hx, Nat.mod_eq_of_lt hx'] at h2
  exact ⟨h2, by omega⟩

/-- C2, as stated, fails on a 1×1 image whose sample cell holds (2,0,0): after the pass the cell
holds (1,0,0). -/
theorem tone_pass_writes_samples_counterexample :
    (onIdle ToneMapping.LINEAR 1 1 [⟨2, 0, 0⟩]).samples = [⟨1, 0, 0⟩]
    ∧ (onIdle ToneMapping.LINEAR 1 1 [⟨2, 0, 0⟩]).samples ≠ [⟨2, 0, 0⟩] := by
  have h : (onIdle ToneMapping.LINEAR 1 1 [⟨2, 0, 0⟩]).samples = [⟨1, 0, 0⟩] := by
    rw [onIdle_eq]
    norm_num [clampUpTo, clamp, clampf]
  refine ⟨h, ?_⟩
  rw [h]
  norm_num

/-- C2, amended: the tone-mapping pass of `onIdle` stores into the sample buffer. On a buffer of
width × height cells, for every mode, after the pass every cell holds its former colour clamped
component-wise to [0,1]; a cell whose three components were in [0,1] holds the same colour as
before the pass. -/
theorem tone_pass_clamps_samples (mode : ToneMapping) (width height : Nat)
    (samples : List Color) (hlen : samples.length = width * height) :
    (onIdle mode width height samples).samples = samples.map (fun c => clamp c 0 1)
    ∧ ∀ (i : Nat) (c : Color), samples[i]? = some c → 0 ≤ c.r ∧ c.r ≤ 1 → 0 ≤ c.g ∧ c.g ≤ 1 →
        0 ≤ c.b ∧ c.b ≤ 1 → (onIdle mode width height samples).samples[i]? = some c := by
  have h : (onIdle mode width height samples).samples
      = samples.map (fun c => clamp c 0.0 1.0) := by
    rw [onIdle_eq]
    exact clampUpTo_of_length_le (le_of_eq hlen)
  refine ⟨?_, ?_⟩
  · rw [h]
    simp only [clamp_literals]
  · intro i c hc hr hg hb
    rw [h, List.getElem?_map, hc, Option.map_some', clamp_unit_id hr hg hb]

/-- Instance of the amended C2 on a 2×1 image: the first cell is clamped, the second kept. -/
theorem tone_pass_clamps_samples_witness :
    (onIdle ToneMapping.UNCHARTED_2 2 1 [⟨3, 1 / 2, 0⟩, ⟨1 / 4, 1, 0⟩]).samples
      = [⟨1, 1 / 2, 0⟩, ⟨1 / 4, 1, 0⟩] := by
  have h := (tone_pass_clamps_samples ToneMapping.UNCHARTED_2 2 1
    [⟨3, 1 / 2, 0⟩, ⟨1 / 4, 1, 0⟩] rfl).1
  rw [h]
  norm_num [clamp, clampf]

/-- C8: for an image of width `w` and height `h` and a pixel `(x,y)` with `x < w`, `y < h`: the
cell index `w*y+x` is below `w*h`; distinct pixels have distinct cell indices; the loop body of
the pixel makes one `setPixel` call whose colour is computed from cell `w*y+x` and the mode
alone, and leaves every other cell as it was; and after the whole pass (on a buffer of `w*h`
cells) pixel `(x,y)` has been written, every call for it carrying the colour computed from the
initial content of cell `w*y+x`, so two sample buffers that agree on that cell give the same
output pixel. -/
theorem tone_pass_pixel_independent (mode : ToneMapping) (w h x y : Nat)
    (hx : x < w) (hy : y < h) :
    cellIndex w y x < w * h
    ∧ (∀ x' y', x' < w → y' < h → cellIndex w y' x' = cellIndex w y x → x' = x ∧ y' = y)
    ∧ (∀ st : PassState,
        (pixelBody mode w y st x).calls
          = st.calls ++ [⟨x, y, displayColor mode (st.samples.getD (cellIndex w y x) default)⟩]
        ∧ ∀ j, j ≠ cellIndex w y x → (pixelBody mode w y st x).samples[j]? = st.samples[j]?)
    ∧ (∀ samples : List Color, samples.length = w * h →
        ∃ cell, samples[cellIndex w y x]? = some cell
          ∧ (∃ c ∈ (onIdle mode w h samples).calls, c.x = x ∧ c.y = y)
          ∧ (∀ c ∈ (onIdle mode w h samples).calls, c.x = x → c.y = y →
              c.value = displayColor mode cell)
          ∧ (onIdle mode w h samples).calls.length = w * h)
    ∧ (∀ s₁ s₂ : List Color, s₁.length = w * h → s₂.length = w * h →
        s₁[cellIndex w y x]? = s₂[cellIndex w y x]? →
        ∀ c₁ ∈ (onIdle mode w h s₁).calls, ∀ c₂ ∈ (onIdle mode w h s₂).calls,
          c₁.x = x → c₁.y = y → c₂.x = x → c₂.y = y → c₁.value = c₂.value) := by
  have hlt := cellIndex_lt hx hy
  have hvalue : ∀ (s : List Color) (c : SetPixelCall), c ∈ (onIdle mode w h s).calls →
      c.x = x → c.y = y → c.value = displayColor mode (s.getD (cellIndex w y x) default) := by
    intro s c hc hcx hcy
    obtain ⟨y', -, x', -, rfl⟩ := mem_onIdle_calls.mp hc
    simp only at hcx hcy
    subst hcx hcy
    rfl
  refine ⟨hlt, ?_, ?_, ?_, ?_⟩
  · intro x' y' hx' _ heq
    exact cellIndex_inj hx hx' heq
  · intro st
    refine ⟨rfl, fun j hj => ?_⟩
    simp only [pixelBody]
    exact List.getElem?_set_ne (Ne.symm hj)
  · intro samples hlen
    have hin : cellIndex w y x < samples.length := by rw [hlen]; exact hlt
    refine ⟨samples[cellIndex w y x], List.getElem?_eq_getElem hin, ?_, ?_, ?_⟩
    · exact ⟨_, mem_onIdle_calls.mpr ⟨y, hy, x, hx, rfl⟩, rfl, rfl⟩
    · intro c hc hcx hcy
      rw [hvalue samples c hc hcx hcy, List.getD_eq_getElem?_getD,
        List.getElem?_eq_getElem hin]
      rfl
    · rw [onIdle_eq]
      simp [List.length_flatten, rowCalls, Function.comp_def, List.map_const', mul_comm]
  · intro s₁ s₂ _ _ heq c₁ hc₁ c₂ hc₂ h1x h1y h2x h2y
    rw [hvalue s₁ c₁ hc₁ h1x h1y, hvalue s₂ c₂ hc₂ h2x h2y, List.getD_eq_getElem?_getD,
      List.getD_eq_getElem?_getD, heq]

/-- Instance of C8 on a 2×2 image at pixel (1,1), whose cell is the fourth one. -/
theorem tone_pass_pixel_independent_witness :
    cellIndex 2 1 1 < 2 * 2
    ∧ ∃ c ∈ (onIdle ToneMapping.GLOBAL_REINHARD 2 2
          [⟨5, 0, 0⟩, ⟨0, 7, 0⟩, ⟨0, 0, 9⟩, ⟨1 / 4, 1 / 2, 1⟩]).calls,
        c.x = 1 ∧ c.y = 1
        ∧ c.value = displayColor ToneMapping.GLOBAL_REINHARD ⟨1 / 4, 1 / 2, 1⟩ := by
  have h := tone_pass_pixel_independent ToneMapping.GLOBAL_REINHARD 2 2 1 1
    (by decide) (by decide)
  obtain ⟨cell, hcell, ⟨c, hc, hcx, hcy⟩, hall, -⟩ :=
    h.2.2.2.1 [⟨5, 0, 0⟩, ⟨0, 7, 0⟩, ⟨0, 0, 9⟩, ⟨1 / 4, 1 / 2, 1⟩] rfl
  have hcell' : cell = ⟨1 / 4, 1 / 2, 1⟩ := by
    simp only [cellIndex, List.getElem?_cons_succ, List.getElem?_cons_zero,
      Option.some.injEq] at hcell
    exact hcell.symm
  exact ⟨h.1, c, hc, hcx, hcy, by rw [hall c hc hcx hcy, hcell']⟩

end PathTracerWindow

/-! ## Mesh loading -/

theorem forCollect_total {α : Type} (n : Nat) (body : Nat → Option α)
    (h : ∀ i, i < n → ∃ a, body i = some a) :
    ∃ out, forCollect n body = some out ∧ out.length = n := by
  induction n with
  | zero => exact ⟨[], rfl, rfl⟩
  | succ k ih =>
    obtain ⟨out, hout, hlen⟩ := ih (fun i hi => h i (Nat.lt_succ_of_lt hi))
    obtain ⟨a, ha⟩ := h k (Nat.lt_succ_self k)
    exact ⟨out ++ [a], by simp [forCollect, hout, ha], by simp [hlen]⟩

theorem loadVertex_total {positions : List Vec3} {indices : List Nat}
    (hidx : ∀ k ∈ indices, k < positions.length) {k : Nat} (hk : k < indices.length) :
    ∃ v, loadVertex positions indices k = some v := by
  have hmem : indices[k] ∈ indices := List.getElem_mem hk
  have hlt := hidx _ hmem
  simp [loadVertex, List.getElem?_eq_getElem hk, List.getElem?_eq_getElem hlt]

/-- The first loop of `loadObjFile` never reads out of bounds. -/
theorem positions_total (ps : List ℚ) :
    ∃ positions : List Vec3, forCollect (ps.length / 3) (fun i => do
        let px ← ps[3 * i]?
        let py ← ps[3 * i + 1]?
        let pz ← ps[3 * i + 2]?
        pure (⟨px, py, pz⟩ : Vec3)) = some positions ∧ positions.length = ps.length / 3 := by
  apply forCollect_total
  intro i hi
  have h0 : 3 * i < ps.length := by omega
  have h1 : 3 * i + 1 < ps.length := by omega
  have h2 : 3 * i + 2 < ps.length := by omega
  simp [List.getElem?_eq_getElem h0, List.getElem?_eq_getElem h1,
    List.getElem?_eq_getElem h2]

/-- The function `loadObjFile` returns a vector of `indices.size()/3` triangles when the indices
of the first shape are in range. -/
theorem loadObjFile_total (shape : Shape) (rest : List Shape) (err : String)
    (hidx : ∀ k ∈ shape.mesh.indices, k < shape.mesh.positions.length / 3) :
    ∃ triangles, loadObjFile (shape :: rest) err = some triangles
      ∧ triangles.length = shape.mesh.indices.length / 3 := by
  obtain ⟨positions, hpos, hlen⟩ := positions_total shape.mesh.positions
  have hidx' : ∀ k ∈ shape.mesh.indices, k < positions.length := by
    intro k hk; rw [hlen]; exact hidx k hk
  obtain ⟨triangles, htri, htlen⟩ := forCollect_total (shape.mesh.indices.length / 3)
    (fun i => do
      let v1 ← loadVertex positions shape.mesh.indices (i * 3)
      let v2 ← loadVertex positions shape.mesh.indices (i * 3 + 1)
      let v3 ← loadVertex positions shape.mesh.indices (i * 3 + 2)
      pure (⟨v1, v2, v3, Material.Cyan⟩ : Triangle))
    (by
      intro i hi
      obtain ⟨v1, h1⟩ := loadVertex_total hidx' (k := i * 3) (by omega)
      obtain ⟨v2, h2⟩ := loadVertex_total hidx' (k := i * 3 + 1) (by omega)
      obtain ⟨v3, h3⟩ := loadVertex_total hidx' (k := i * 3 + 2) (by omega)
      simp [h1, h2, h3])
  refine ⟨triangles, ?_, htlen⟩
  simp only [Option.bind_eq_bind] at hpos htri
  simp only [loadObjFile, List.getElem?_cons_zero, Option.bind_eq_bind, Option.some_bind]
  rw [hpos]
  exact htri

/-- C9, as stated, fails on a first shape without positions and indices: `loadObjFile` returns
the empty triangle vector, and the constructor adds a `MeshObject` without triangles as the
last object of the scene. -/
theorem loadObjFile_empty_mesh_counterexample :
    loadObjFile [⟨⟨[], []⟩⟩] "" = some []
    ∧ ∃ scene, PathTracerWindow.PathTracerWindow [⟨⟨[], []⟩⟩] "" = some scene
        ∧ scene.getLast? = some (SceneObject.MeshObject [] true) := by
  have h : loadObjFile [⟨⟨[], []⟩⟩] "" = some [] := by
    simp [loadObjFile, forCollect]
  refine ⟨h, ?_⟩
  simp [PathTracerWindow.PathTracerWindow, h, Renderer.add]

/-- C9, amended: `loadObjFile` reports no error and never inspects the error string of the
loader. When the indices of the first loaded shape are in range it returns a vector of
`indices.size()/3` triangles, the empty vector when there are fewer than 3 indices, and the
constructor adds a `MeshObject` with these triangles (possibly none) as the ninth and last object
of the scene. -/
theorem loadObjFile_returns_without_error (shape : Shape) (rest : List Shape) (err : String)
    (hidx : ∀ k ∈ shape.mesh.indices, k < shape.mesh.positions.length / 3) :
    ∃ triangles, loadObjFile (shape :: rest) err = some triangles
      ∧ (∀ err', loadObjFile (shape :: rest) err' = some triangles)
      ∧ triangles.length = shape.mesh.indices.length / 3
      ∧ (shape.mesh.indices.length < 3 → triangles = [])
      ∧ ∃ scene, PathTracerWindow.PathTracerWindow (shape :: rest) err = some scene
          ∧ scene.length = 9
          ∧ scene.getLast? = some (SceneObject.MeshObject triangles true) := by
  obtain ⟨triangles, htri, hlen⟩ := loadObjFile_total shape rest err hidx
  refine ⟨triangles, htri, fun err' => htri, hlen, ?_, ?_⟩
  · intro h3
    have h0 : triangles.length = 0 := by rw [hlen]; omega
    exact List.length_eq_zero.mp h0
  · simp [PathTracerWindow.PathTracerWindow, htri, Renderer.add]

/-- Instance of the amended C9 on a shape with three positions and two indices. -/
theorem loadObjFile_returns_without_error_witness :
    ∃ triangles, loadObjFile [⟨⟨[0, 0, 0, 1, 0, 0, 0, 1, 0], [0, 1]⟩⟩] "" = some triangles
      ∧ triangles = [] := by
  obtain ⟨triangles, htri, -, -, hnil, -⟩ :=
    loadObjFile_returns_without_error ⟨⟨[0, 0, 0, 1, 0, 0, 0, 1, 0], [0, 1]⟩⟩ [] ""
      (by intro k hk; simp at hk; rcases hk with rfl | rfl <;> decide)
  exact ⟨triangles, htri, hnil (by decide)⟩

/-! ## Binary32 arithmetic: rounding -/

theorem rne_floor_le (q : ℚ) : ⌊q⌋ ≤ rne q := by
  unfold rne
  split_ifs <;> omega

theorem rne_le_floor_succ (q : ℚ) : rne q ≤ ⌊q⌋ + 1 := by
  unfold rne
  split_ifs <;> omega

theorem rne_intCast (m : ℤ) : rne (m : ℚ) = m := by
  unfold rne
  simp

theorem rne_le_of_le_int {q : ℚ} {m : ℤ} (h : q ≤ m) : rne q ≤ m := by
  have hf : (⌊q⌋ : ℚ) ≤ q := Int.floor_le q
  have hfm : ⌊q⌋ ≤ m := by exact_mod_cast le_trans hf h
  have hlt : q - ⌊q⌋ ≠ 0 → ⌊q⌋ + 1 ≤ m := by
    intro hne
    have : (⌊q⌋ : ℚ) < m := lt_of_lt_of_le (lt_of_le_of_ne hf (fun e => hne (by rw [e]; ring))) h
    have : ⌊q⌋ < m := by exact_mod_cast this
    omega
  unfold rne
  split_ifs with h1 h2 h3
  · exact hfm
  · exact hlt (by linarith)
  · exact hfm
  · exact hlt (by linarith)

theorem int_le_rne {q : ℚ} {m : ℤ} (h : (m : ℚ) ≤ q) : m ≤ rne q :=
  le_trans (Int.le_floor.mpr h) (rne_floor_le q)

theorem rne_mono {a b : ℚ} (h : a ≤ b) : rne a ≤ rne b := by
  have hfl : ⌊a⌋ ≤ ⌊b⌋ := Int.floor_mono h
  rcases lt_or_eq_of_le hfl with hlt | heq
  · exact le_trans (rne_le_floor_succ a) (le_trans (by omega) (rne_floor_le b))
  · have hfrac : a - ⌊a⌋ ≤ b - ⌊b⌋ := by rw [heq]; linarith
    unfold rne
    rw [heq]
    rw [heq] at hfrac
    split_ifs <;> first | omega | (exfalso; linarith)

theorem rne_sub_le (q : ℚ) : (rne q : ℚ) - q ≤ 1 / 2 := by
  have h1 : (⌊q⌋ : ℚ) ≤ q := Int.floor_le q
  unfold rne
  split_ifs with h1 h2 h3 <;> push_cast <;> linarith

theorem sub_rne_le (q : ℚ) : q - (rne q : ℚ) ≤ 1 / 2 := by
  have h1 : q < (⌊q⌋ : ℚ) + 1 := Int.lt_floor_add_one q
  unfold rne
  split_ifs with h1 h2 h3 <;> push_cast <;> linarith

theorem log2Aux_spec (fuel n : Nat) (hn : 1 ≤ n) (hf : n ≤ fuel) :
    2 ^ log2Aux fuel n ≤ n ∧ n < 2 ^ (log2Aux fuel n + 1) := by
  induction fuel generalizing n with
  | zero => omega
  | succ fuel ih =>
    unfold log2Aux
    split_ifs with h2
    · constructor <;> simp <;> omega
    · have := ih (n / 2) (by omega) (by omega)
      constructor
      · rw [pow_succ]; omega
      · rw [pow_succ]; omega

theorem nlog2_spec {n : Nat} (hn : 1 ≤ n) :
    2 ^ nlog2 n ≤ n ∧ n < 2 ^ (nlog2 n + 1) :=
  log2Aux_spec n n hn le_rfl

theorem abs_eq_natAbs_div (q : ℚ) : |q| = (q.num.natAbs : ℚ) / (q.den : ℚ) := by
  have h := Rat.num_div_den q
  have hd : (0 : ℚ) < q.den := by exact_mod_cast q.den_pos
  conv_lhs => rw [← h]
  rw [abs_div, abs_of_pos hd, Nat.cast_natAbs, Int.cast_abs]

theorem flog2_spec {q : ℚ} (hq : q ≠ 0) :
    (2 : ℚ) ^ flog2 q ≤ |q| ∧ |q| < (2 : ℚ) ^ (flog2 q + 1) := by
  have hn : 1 ≤ q.num.natAbs := by
    have : q.num ≠ 0 := Rat.num_ne_zero.mpr hq
    omega
  have hd : 1 ≤ q.den := q.den_pos
  obtain ⟨n1, n2⟩ := nlog2_spec hn
  obtain ⟨d1, d2⟩ := nlog2_spec hd
  have hdq : (0 : ℚ) < q.den := by exact_mod_cast q.den_pos
  have n1' : (2 : ℚ) ^ nlog2 q.num.natAbs ≤ q.num.natAbs := by exact_mod_cast n1
  have n2' : (q.num.natAbs : ℚ) < 2 ^ (nlog2 q.num.natAbs + 1) := by exact_mod_cast n2
  have d1' : (2 : ℚ) ^ nlog2 q.den ≤ q.den := by exact_mod_cast d1
  have d2' : (q.den : ℚ) < 2 ^ (nlog2 q.den + 1) := by exact_mod_cast d2
  have hpn : (0 : ℚ) < 2 ^ nlog2 q.num.natAbs := by positivity
  have hpd : (0 : ℚ) < 2 ^ nlog2 q.den := by positivity
  have habs := abs_eq_natAbs_div q
  have two : (2 : ℚ) ≠ 0 := two_ne_zero
  have e1 : (2 : ℚ) ^ ((nlog2 q.num.natAbs : ℤ) - (nlog2 q.den : ℤ) + 1)
      = 2 ^ (nlog2 q.num.natAbs + 1) / 2 ^ nlog2 q.den := by
    rw [show ((nlog2 q.num.natAbs : ℤ) - (nlog2 q.den : ℤ) + 1)
      = ((nlog2 q.num.natAbs + 1 : ℕ) : ℤ) - ((nlog2 q.den : ℕ) : ℤ) by push_cast; ring]
    rw [zpow_sub₀ two, zpow_natCast, zpow_natCast]
  have e2 : (2 : ℚ) ^ ((nlog2 q.num.natAbs : ℤ) - (nlog2 q.den : ℤ) - 1)
      = 2 ^ nlog2 q.num.natAbs / 2 ^ (nlog2 q.den + 1) := by
    rw [show ((nlog2 q.num.natAbs : ℤ) - (nlog2 q.den : ℤ) - 1)
      = ((nlog2 q.num.natAbs : ℕ) : ℤ) - ((nlog2 q.den + 1 : ℕ) : ℤ) by push_cast; ring]
    rw [zpow_sub₀ two, zpow_natCast, zpow_natCast]
  unfold flog2
  simp only
  split_ifs with h
  · refine ⟨h, ?_⟩
    rw [e1, habs, div_lt_div_iff₀ hdq hpd]
    calc (q.num.natAbs : ℚ) * 2 ^ nlog2 q.den ≤ q.num.natAbs * q.den := by
          apply mul_le_mul_of_nonneg_left d1' (by positivity)
      _ < 2 ^ (nlog2 q.num.natAbs + 1) * q.den := by
          apply mul_lt_mul_of_pos_right n2' hdq
  · push_neg at h
    refine ⟨?_, by simpa using h⟩
    rw [e2, habs, div_le_div_iff₀ (by positivity) hdq]
    calc (2 : ℚ) ^ nlog2 q.num.natAbs * q.den ≤ q.num.natAbs * q.den := by
          apply mul_le_mul_of_nonneg_right n1' (le_of_lt hdq)
      _ ≤ q.num.natAbs * 2 ^ (nlog2 q.den + 1) := by
          apply mul_le_mul_of_nonneg_left (le_of_lt d2') (by positivity)

theorem flog2_unique {q : ℚ} {m : ℤ} (h1 : (2 : ℚ) ^ m ≤ |q|) (h2 : |q| < (2 : ℚ) ^ (m + 1)) :
    flog2 q = m := by
  have hq : q ≠ 0 := by
    intro h0
    rw [h0, abs_zero] at h1
    exact absurd h1 (not_le.mpr (by positivity))
  obtain ⟨s1, s2⟩ := flog2_spec hq
  have two : (1 : ℚ) < 2 := by norm_num
  have a : m < flog2 q + 1 := (zpow_lt_zpow_iff_right₀ two).mp (lt_of_le_of_lt h1 s2)
  have b : flog2 q < m + 1 := (zpow_lt_zpow_iff_right₀ two).mp (lt_of_le_of_lt s1 h2)
  omega

theorem flog2_mono {a b : ℚ} (ha : 0 < a) (hab : a ≤ b) : flog2 a ≤ flog2 b := by
  obtain ⟨a1, -⟩ := flog2_spec (ne_of_gt ha)
  obtain ⟨-, b2⟩ := flog2_spec (ne_of_gt (lt_of_lt_of_le ha hab))
  rw [abs_of_pos ha] at a1
  rw [abs_of_pos (lt_of_lt_of_le ha hab)] at b2
  have two : (1 : ℚ) < 2 := by norm_num
  have : flog2 a < flog2 b + 1 := (zpow_lt_zpow_iff_right₀ two).mp (lt_of_le_of_lt (le_trans a1 hab) b2)
  omega

theorem ulp_pos (q : ℚ) : 0 < ulp q := by
  unfold ulp; positivity

theorem rnd_zero : rnd 0 = 0 := by
  unfold rnd
  rw [zero_div]
  have : rne (0 : ℚ) = 0 := by simpa using rne_intCast 0
  rw [this]; simp

theorem rnd_nonneg {q : ℚ} (hq : 0 ≤ q) : 0 ≤ rnd q := by
  unfold rnd
  have h0 : (0 : ℤ) ≤ rne (q / ulp q) :=
    int_le_rne (by simpa using div_nonneg hq (le_of_lt (ulp_pos q)))
  have : (0 : ℚ) ≤ (rne (q / ulp q) : ℚ) := by exact_mod_cast h0
  exact mul_nonneg this (le_of_lt (ulp_pos q))

theorem rnd_nonpos {q : ℚ} (hq : q ≤ 0) : rnd q ≤ 0 := by
  unfold rnd
  have h0 : rne (q / ulp q) ≤ (0 : ℤ) :=
    rne_le_of_le_int (by simpa using div_nonpos_of_nonpos_of_nonneg hq (le_of_lt (ulp_pos q)))
  have : (rne (q / ulp q) : ℚ) ≤ 0 := by exact_mod_cast h0
  exact mul_nonpos_of_nonpos_of_nonneg this (le_of_lt (ulp_pos q))

/-- The rounding error is at most half a spacing. -/
theorem abs_rnd_sub_le (q : ℚ) : |rnd q - q| ≤ ulp q / 2 := by
  have hu := ulp_pos q
  have h1 := rne_sub_le (q / ulp q)
  have h2 := sub_rne_le (q / ulp q)
  have e : rnd q - q = ((rne (q / ulp q) : ℚ) - q / ulp q) * ulp q := by
    unfold rnd; field_simp
  rw [e, abs_mul, abs_of_pos hu]
  have : |(rne (q / ulp q) : ℚ) - q / ulp q| ≤ 1 / 2 := abs_le.mpr ⟨by linarith, by linarith⟩
  calc |(rne (q / ulp q) : ℚ) - q / ulp q| * ulp q ≤ 1 / 2 * ulp q :=
        mul_le_mul_of_nonneg_right this (le_of_lt hu)
    _ = ulp q / 2 := by ring

theorem expo_ge (q : ℚ) : -126 ≤ expo q := le_max_right _ _

theorem lt_two_pow_expo {q : ℚ} (hq : 0 < q) : q < (2 : ℚ) ^ (expo q + 1) := by
  obtain ⟨-, h2⟩ := flog2_spec (ne_of_gt hq)
  rw [abs_of_pos hq] at h2
  have : (2 : ℚ) ^ (flog2 q + 1) ≤ 2 ^ (expo q + 1) :=
    zpow_le_zpow_right₀ (by norm_num) (by unfold expo; have := le_max_left (flog2 q) (-126); omega)
  exact lt_of_lt_of_le h2 this

theorem ulp_mul_two_pow (q : ℚ) : (2 : ℚ) ^ (24 : ℕ) * ulp q = 2 ^ (expo q + 1) := by
  unfold ulp
  rw [← zpow_natCast, ← zpow_add₀ (two_ne_zero)]
  congr 1
  push_cast; ring

theorem ulp_mul_two_pow' (q : ℚ) : (2 : ℚ) ^ (23 : ℕ) * ulp q = 2 ^ expo q := by
  unfold ulp
  rw [← zpow_natCast, ← zpow_add₀ (two_ne_zero)]
  congr 1
  push_cast; ring

theorem rne_div_ulp_le {q : ℚ} (hq : 0 ≤ q) : rne (q / ulp q) ≤ 2 ^ (24 : ℕ) := by
  apply rne_le_of_le_int
  rw [div_le_iff₀ (ulp_pos q)]
  have h := ulp_mul_two_pow q
  norm_num at h ⊢
  rw [h]
  rcases eq_or_lt_of_le hq with h0 | hpos
  · rw [← h0]; positivity
  · exact le_of_lt (lt_two_pow_expo hpos)

theorem rnd_le_two_pow {q : ℚ} (hq : 0 ≤ q) : rnd q ≤ (2 : ℚ) ^ (expo q + 1) := by
  have h : ((rne (q / ulp q) : ℤ) : ℚ) ≤ ((2 ^ (24 : ℕ) : ℤ) : ℚ) := by
    exact_mod_cast rne_div_ulp_le hq
  push_cast at h
  calc rnd q = (rne (q / ulp q) : ℚ) * ulp q := rfl
    _ ≤ 2 ^ (24 : ℕ) * ulp q := mul_le_mul_of_nonneg_right h (le_of_lt (ulp_pos q))
    _ = 2 ^ (expo q + 1) := ulp_mul_two_pow q

theorem two_pow_le_rnd {q : ℚ} (hq : 0 < q) (hn : expo q = flog2 q) :
    (2 : ℚ) ^ expo q ≤ rnd q := by
  obtain ⟨h1, -⟩ := flog2_spec (ne_of_gt hq)
  rw [abs_of_pos hq, ← hn] at h1
  have hk : ((2 ^ (23 : ℕ) : ℤ)) ≤ rne (q / ulp q) := by
    apply int_le_rne
    rw [le_div_iff₀ (ulp_pos q)]
    have h := ulp_mul_two_pow' q
    norm_num at h ⊢
    rw [h]
    exact h1
  have h : ((2 ^ (23 : ℕ) : ℤ) : ℚ) ≤ ((rne (q / ulp q) : ℤ) : ℚ) := by exact_mod_cast hk
  push_cast at h
  calc (2 : ℚ) ^ expo q = 2 ^ (23 : ℕ) * ulp q := (ulp_mul_two_pow' q).symm
    _ ≤ (rne (q / ulp q) : ℚ) * ulp q := mul_le_mul_of_nonneg_right h (le_of_lt (ulp_pos q))

/-- Rounding preserves the order of non-negative numbers. -/
theorem rnd_mono {a b : ℚ} (ha : 0 ≤ a) (hab : a ≤ b) : rnd a ≤ rnd b := by
  rcases eq_or_lt_of_le ha with h0 | hpos
  · rw [← h0, rnd_zero]; exact rnd_nonneg (le_trans ha hab)
  have hb : 0 < b := lt_of_lt_of_le hpos hab
  have hfl := flog2_mono hpos hab
  have hexp : expo a ≤ expo b := max_le_max hfl le_rfl
  rcases eq_or_lt_of_le hexp with heq | hlt
  · have hu : ulp a = ulp b := by unfold ulp; rw [heq]
    unfold rnd
    rw [hu]
    have hr : rne (a / ulp b) ≤ rne (b / ulp b) :=
      rne_mono (div_le_div_of_nonneg_right hab (le_of_lt (ulp_pos b)))
    have : ((rne (a / ulp b) : ℤ) : ℚ) ≤ ((rne (b / ulp b) : ℤ) : ℚ) := by exact_mod_cast hr
    exact mul_le_mul_of_nonneg_right this (le_of_lt (ulp_pos b))
  · have hn : expo b = flog2 b := by
      have hge := expo_ge a
      unfold expo at hlt ⊢
      rcases max_cases (flog2 b) (-126) with ⟨h, -⟩ | ⟨h, -⟩
      · exact h
      · rw [h] at hlt
        have := le_max_right (flog2 a) (-126)
        omega
    calc rnd a ≤ 2 ^ (expo a + 1) := rnd_le_two_pow ha
      _ ≤ 2 ^ expo b := zpow_le_zpow_right₀ (by norm_num) (by omega)
      _ ≤ rnd b := two_pow_le_rnd hb hn

/-- A multiple of the spacing of its own binade is a fixed point of the rounding. -/
theorem rnd_of_grid {r : ℚ} {k e : ℤ} (hr : 0 ≤ r) (hk : r = (k : ℚ) * 2 ^ (e - 23))
    (he : -126 ≤ e) (hlt : r < (2 : ℚ) ^ (e + 1)) : rnd r = r := by
  rcases eq_or_lt_of_le hr with h0 | hpos
  · rw [← h0, rnd_zero]
  obtain ⟨h1, -⟩ := flog2_spec (ne_of_gt hpos)
  rw [abs_of_pos hpos] at h1
  have hfl : flog2 r < e + 1 :=
    (zpow_lt_zpow_iff_right₀ (by norm_num : (1 : ℚ) < 2)).mp (lt_of_le_of_lt h1 hlt)
  have hexp : expo r ≤ e := max_le (by omega) he
  obtain ⟨n, hn⟩ := Int.eq_ofNat_of_zero_le (sub_nonneg.mpr hexp)
  have hdiv : r / ulp r = ((k * 2 ^ n : ℤ) : ℚ) := by
    rw [div_eq_iff (ne_of_gt (ulp_pos r))]
    conv_lhs => rw [hk]
    unfold ulp
    push_cast
    rw [mul_assoc, ← zpow_natCast, ← zpow_add₀ (two_ne_zero)]
    congr 2
    omega
  unfold rnd
  rw [hdiv, rne_intCast, ← hdiv]
  exact div_mul_cancel₀ _ (ne_of_gt (ulp_pos r))

/-- Rounding is idempotent on non-negative numbers. -/
theorem rnd_rnd {q : ℚ} (hq : 0 ≤ q) : rnd (rnd q) = rnd q := by
  have hk := rne_div_ulp_le hq
  rcases eq_or_lt_of_le hk with heq | hlt
  · have hval : rnd q = ((2 ^ (23 : ℕ) : ℤ) : ℚ) * 2 ^ ((expo q + 1) - 23) := by
      have e1 : (2 : ℚ) ^ (expo q + 1 - 23) = 2 ^ (expo q - 23) * 2 := by
        rw [show expo q + 1 - 23 = (expo q - 23) + 1 by ring, zpow_add_one₀ (two_ne_zero)]
      unfold rnd
      rw [heq, e1]
      unfold ulp
      push_cast
      ring
    refine rnd_of_grid (rnd_nonneg hq) hval (by have := expo_ge q; omega) ?_
    have : rnd q = (2 : ℚ) ^ (expo q + 1) := by
      unfold rnd; rw [heq]; push_cast; exact ulp_mul_two_pow q
    rw [this]
    exact (zpow_lt_zpow_iff_right₀ (by norm_num : (1 : ℚ) < 2)).mpr (by omega)
  · refine rnd_of_grid (k := rne (q / ulp q)) (e := expo q) (rnd_nonneg hq) rfl (expo_ge q) ?_
    have h : ((rne (q / ulp q) : ℤ) : ℚ) < ((2 ^ (24 : ℕ) : ℤ) : ℚ) := by exact_mod_cast hlt
    push_cast at h
    calc rnd q = (rne (q / ulp q) : ℚ) * ulp q := rfl
      _ < 2 ^ (24 : ℕ) * ulp q := mul_lt_mul_of_pos_right h (ulp_pos q)
      _ = 2 ^ (expo q + 1) := ulp_mul_two_pow q

/-- The standard error bound of binary32 rounding, with the absolute term of the subnormal
range. -/
theorem abs_rnd_sub_le_rel (q : ℚ) : |rnd q - q| ≤ |q| / 2 ^ 24 + 1 / 2 ^ 150 := by
  have h := abs_rnd_sub_le q
  have habs : (0 : ℚ) ≤ |q| := abs_nonneg q
  by_cases hq : q = 0
  · rw [hq, rnd_zero]; norm_num
  have hcase : ulp q / 2 ≤ |q| / 2 ^ 24 ∨ ulp q / 2 = 1 / 2 ^ 150 := by
    unfold ulp expo
    rcases max_cases (flog2 q) (-126) with ⟨h1, -⟩ | ⟨h1, -⟩
    · left
      rw [h1]
      obtain ⟨s1, -⟩ := flog2_spec hq
      rw [zpow_sub₀ (two_ne_zero)]
      have : ((2 : ℚ) ^ (23 : ℤ)) = 2 ^ 23 := by norm_num
      rw [this]
      have h23 : (0 : ℚ) < 2 ^ 23 := by positivity
      rw [div_div, div_le_div_iff₀ (by positivity) (by positivity)]
      nlinarith
    · right
      rw [h1]
      norm_num
  rcases hcase with hc | hc
  · have : (0 : ℚ) ≤ 1 / 2 ^ 150 := by positivity
    linarith
  · have : (0 : ℚ) ≤ |q| / 2 ^ 24 := by positivity
    linarith

theorem rnd_near (q : ℚ) : |rnd q - q| ≤ |q| * u32 + eta32 := by
  have h := abs_rnd_sub_le_rel q
  unfold u32 eta32
  rw [mul_one_div]
  exact h

theorem rnd_le_two_mul_add_one {q : ℚ} (hq : 0 ≤ q) : rnd q ≤ 2 * q + 1 := by
  have h := rnd_near q
  rw [abs_of_nonneg hq] at h
  have h1 := (abs_le.mp h).2
  unfold u32 eta32 at h1
  have : q * (1 / 2 ^ 24) ≤ q := by
    have : (1 : ℚ) / 2 ^ 24 ≤ 1 := by norm_num
    nlinarith
  have : (1 : ℚ) / 2 ^ 150 ≤ 1 := by norm_num
  linarith

/-- Error of a rounded product of an exact non-negative factor and an approximated one. -/
theorem near_mul {x a t ε ζ : ℚ} (hx : 0 ≤ x) (ha : 0 ≤ a)
    (ht : |t - a| ≤ ε * a) (hζ : ε + u32 + u32 * ε ≤ ζ) :
    |rnd (x * t) - x * a| ≤ ζ * (x * a) + eta32 := by
  have hxa : 0 ≤ x * a := mul_nonneg hx ha
  have h1 : |x * t - x * a| ≤ ε * (x * a) := by
    rw [← mul_sub, abs_mul, abs_of_nonneg hx]
    calc x * |t - a| ≤ x * (ε * a) := mul_le_mul_of_nonneg_left ht hx
      _ = ε * (x * a) := by ring
  have h2 : |x * t| ≤ (1 + ε) * (x * a) := by
    have := abs_sub_abs_le_abs_sub (x * t) (x * a)
    rw [abs_of_nonneg hxa] at this
    linarith
  have h3 := rnd_near (x * t)
  have hu : (0 : ℚ) ≤ u32 := by unfold u32; positivity
  have h4 : |x * t| * u32 ≤ (1 + ε) * (x * a) * u32 := mul_le_mul_of_nonneg_right h2 hu
  have h5 : |rnd (x * t) - x * a| ≤ |rnd (x * t) - x * t| + |x * t - x * a| := by
    have := abs_add (rnd (x * t) - x * t) (x * t - x * a)
    simpa using this
  have h6 : (ε + u32 + u32 * ε) * (x * a) ≤ ζ * (x * a) := mul_le_mul_of_nonneg_right hζ hxa
  nlinarith

/-- Error of a rounded sum of an approximated non-negative term and an approximated positive
constant. -/
theorem near_add {a t c c' ε κ : ℚ} (δ ζ : ℚ) (ha : 0 ≤ a) (hc : 0 ≤ c)
    (ht : |t - a| ≤ ε * a + eta32) (hc' : |c' - c| ≤ κ * c)
    (h1 : ε ≤ δ) (h2 : κ * c + eta32 ≤ δ * c) (h3 : δ * (1 + u32) + u32 ≤ ζ)
    (h4 : eta32 ≤ (ζ - (δ * (1 + u32) + u32)) * c) :
    |rnd (t + c') - (a + c)| ≤ ζ * (a + c) := by
  have hac : 0 ≤ a + c := add_nonneg ha hc
  have hs : |t + c' - (a + c)| ≤ δ * (a + c) := by
    have := abs_add (t - a) (c' - c)
    have e : t - a + (c' - c) = t + c' - (a + c) := by ring
    rw [e] at this
    have : ε * a ≤ δ * a := mul_le_mul_of_nonneg_right h1 ha
    nlinarith
  have habs : |t + c'| ≤ (1 + δ) * (a + c) := by
    have := abs_sub_abs_le_abs_sub (t + c') (a + c)
    rw [abs_of_nonneg hac] at this
    linarith
  have h5 := rnd_near (t + c')
  have hu : (0 : ℚ) ≤ u32 := by unfold u32; positivity
  have h6 : |t + c'| * u32 ≤ (1 + δ) * (a + c) * u32 := mul_le_mul_of_nonneg_right habs hu
  have h7 : |rnd (t + c') - (a + c)| ≤ |rnd (t + c') - (t + c')| + |t + c' - (a + c)| := by
    have := abs_add (rnd (t + c') - (t + c')) (t + c' - (a + c))
    simpa using this
  have h8 : (ζ - (δ * (1 + u32) + u32)) * c ≤ (ζ - (δ * (1 + u32) + u32)) * (a + c) := by
    apply mul_le_mul_of_nonneg_left _ (by linarith)
    linarith
  nlinarith

theorem u32_pos : 0 < u32 := by unfold u32; positivity

theorem near_mul' {x a t k : ℚ} (hx : 0 ≤ x) (ha : 0 ≤ a) (hk : k ≤ 100)
    (ht : |t - a| ≤ k * u32 * a) :
    |rnd (x * t) - x * a| ≤ (k + 2) * u32 * (x * a) + eta32 := by
  refine near_mul hx ha ht ?_
  have hu : u32 = 1 / 2 ^ 24 := rfl
  rw [hu]
  nlinarith

theorem near_add' {a t c c' k : ℚ} (ha : 0 ≤ a) (hc : 1 / 512 ≤ c) (hk1 : 1 ≤ k)
    (hk : k ≤ 100) (ht : |t - a| ≤ k * u32 * a + eta32) (hc' : |c' - c| ≤ u32 * c) :
    |rnd (t + c') - (a + c)| ≤ (k + 2) * u32 * (a + c) := by
  have hu : u32 = 1 / 2 ^ 24 := rfl
  have hη : eta32 ≤ 1 / 2 ^ 100 * c := by
    have : eta32 ≤ 1 / 2 ^ 109 := by unfold eta32; norm_num
    have : (1 : ℚ) / 2 ^ 109 ≤ 1 / 2 ^ 100 * c := by
      have : (1 : ℚ) / 2 ^ 109 = 1 / 2 ^ 100 * (1 / 512) := by norm_num
      rw [this]
      exact mul_le_mul_of_nonneg_left hc (by positivity)
    linarith
  have hc0 : 0 ≤ c := by linarith
  have hkc : 0 ≤ (k - 1) * c := mul_nonneg (by linarith) hc0
  have hck : 0 ≤ (100 - k) * c := mul_nonneg (by linarith) hc0
  refine near_add ((k + 1 / 2) * u32) ((k + 2) * u32) ha hc0 ht hc' ?_ ?_ ?_ ?_
  · rw [hu]; nlinarith
  · rw [hu]; rw [hu] at hc'; nlinarith
  · rw [hu]; nlinarith
  · rw [hu]; nlinarith

namespace F32

theorem fin_mul_fin (a b : ℚ) : fin a * fin b = round32 (a * b) := rfl
theorem fin_add_fin (a b : ℚ) : fin a + fin b = round32 (a + b) := rfl
theorem fin_sub_fin (a b : ℚ) : fin a - fin b = round32 (a + -b) := rfl
theorem fin_div_fin {a b : ℚ} (hb : b ≠ 0) : fin a / fin b = round32 (a / b) := by
  show F32.div (fin a) (fin b) = _
  simp [F32.div, hb]

end F32

theorem round32_eq_fin {q : ℚ} (h : |q| ≤ 2 ^ 100) : round32 q = F32.fin (rnd q) := by
  have h1 := rnd_near q
  have h2 : |rnd q| ≤ |rnd q - q| + |q| := by
    have := abs_add (rnd q - q) q
    simpa using this
  have h3 : |q| * u32 ≤ |q| := by
    have : u32 ≤ 1 := by unfold u32; norm_num
    have := abs_nonneg q
    nlinarith
  have h4 : eta32 ≤ 1 := by unfold eta32; norm_num
  have h5 : |rnd q| < 2 ^ 128 := by
    have : (2 : ℚ) ^ 100 * 2 + 1 < 2 ^ 128 := by norm_num
    linarith
  unfold round32
  rw [if_neg (not_le.mpr h5)]

theorem round32_eq_fin_of_nonneg {q : ℚ} (h0 : 0 ≤ q) (h : q ≤ 2 ^ 100) :
    round32 q = F32.fin (rnd q) :=
  round32_eq_fin (by rw [abs_of_nonneg h0]; exact h)

namespace PathTracerWindow

namespace Binary32

theorem A_eq : A = F32.fin (5033165 / 33554432) := by decide!
theorem B_eq : B = F32.fin (1 / 2) := by decide!
theorem CB_eq : C * B = F32.fin (13421773 / 268435456) := by decide!
theorem DE_eq : D * E = F32.fin (8589935 / 2147483648) := by decide!
theorem DF_eq : D * F = F32.fin (1006633 / 16777216) := by decide!
theorem EF_eq : E / F = F32.fin (1118481 / 16777216) := by decide!

theorem near_const {c c' : ℚ} (hc : 0 ≤ c) (h : |c' - c| ≤ u32 * c) : 0 ≤ c' ∧ c' ≤ 2 * c := by
  have hu : u32 = 1 / 2 ^ 24 := rfl
  rw [hu] at h
  obtain ⟨h1, h2⟩ := abs_le.mp h
  constructor <;> nlinarith

/-- The common part `x*(A*x+c1)+c2` of numerator and denominator in binary32: finite, close to
the exact value. -/
theorem poly_near {x : ℚ} (c1 c2 d1 d2 : ℚ) (hx0 : 0 ≤ x) (hx : x ≤ 2 ^ 32)
    (hc1 : 1 / 512 ≤ c1) (hc1u : c1 ≤ 1) (hc2 : 1 / 512 ≤ c2) (hc2u : c2 ≤ 1)
    (h1 : |d1 - c1| ≤ u32 * c1) (h2 : |d2 - c2| ≤ u32 * c2) :
    ∃ p, F32.fin x * (A * F32.fin x + F32.fin d1) + F32.fin d2 = F32.fin p
      ∧ |p - (x * (x * PathTracerWindow.A + c1) + c2)|
          ≤ 9 * u32 * (x * (x * PathTracerWindow.A + c1) + c2) := by
  have hA : |(5033165 / 33554432 : ℚ) - PathTracerWindow.A| ≤ 1 * u32 * PathTracerWindow.A := by
    norm_num [PathTracerWindow.A, abs_le, u32]
  have hA0 : (0 : ℚ) ≤ PathTracerWindow.A := by norm_num [PathTracerWindow.A]
  obtain ⟨hd10, hd1⟩ := near_const (by linarith) h1
  obtain ⟨hd20, hd2⟩ := near_const (by linarith) h2
  have p100 : ∀ n : ℕ, n ≤ 100 → (2 : ℚ) ^ n ≤ 2 ^ 100 := fun n hn =>
    pow_le_pow_right₀ (by norm_num) hn
  -- t1 = A * x
  have n1 := near_mul' hx0 hA0 (by norm_num) hA
  have q1 : (0 : ℚ) ≤ x * (5033165 / 33554432) := by positivity
  have q1u : x * (5033165 / 33554432) ≤ 2 ^ 32 := by nlinarith
  have b1u := rnd_le_two_mul_add_one q1
  have e1 : A * F32.fin x = F32.fin (rnd (x * (5033165 / 33554432))) := by
    rw [A_eq, F32.fin_mul_fin, mul_comm,
      round32_eq_fin_of_nonneg q1 (le_trans q1u (p100 32 (by norm_num)))]
  -- t2 = t1 + c1
  have n2 := near_add' (mul_nonneg hx0 hA0) hc1 (by norm_num) (by norm_num) n1 h1
  have q2 : (0 : ℚ) ≤ rnd (x * (5033165 / 33554432)) + d1 := by
    have := rnd_nonneg q1; linarith
  have q2u : rnd (x * (5033165 / 33554432)) + d1 ≤ 2 ^ 34 := by
    have : (2 : ℚ) * 2 ^ 32 + 1 + 2 ≤ 2 ^ 34 := by norm_num
    linarith
  have b2 := rnd_nonneg q2
  have b2u := rnd_le_two_mul_add_one q2
  have e2 : A * F32.fin x + F32.fin d1
      = F32.fin (rnd (rnd (x * (5033165 / 33554432)) + d1)) := by
    rw [e1, F32.fin_add_fin, round32_eq_fin_of_nonneg q2 (le_trans q2u (p100 34 (by norm_num)))]
  -- t3 = x * t2
  have a2 : (0 : ℚ) ≤ x * PathTracerWindow.A + c1 := by positivity
  have n3 := near_mul' hx0 a2 (by norm_num) n2
  have q3 : (0 : ℚ) ≤ x * rnd (rnd (x * (5033165 / 33554432)) + d1) := by positivity
  have q3u : x * rnd (rnd (x * (5033165 / 33554432)) + d1) ≤ 2 ^ 68 := by
    have h36 : rnd (rnd (x * (5033165 / 33554432)) + d1) ≤ 2 ^ 36 := by
      have : (2 : ℚ) * 2 ^ 34 + 1 ≤ 2 ^ 36 := by norm_num
      linarith
    calc x * rnd (rnd (x * (5033165 / 33554432)) + d1) ≤ 2 ^ 32 * 2 ^ 36 :=
          mul_le_mul hx h36 b2 (by positivity)
      _ = 2 ^ 68 := by norm_num
  have b3u := rnd_le_two_mul_add_one q3
  have e3 : F32.fin x * (A * F32.fin x + F32.fin d1)
      = F32.fin (rnd (x * rnd (rnd (x * (5033165 / 33554432)) + d1))) := by
    rw [e2, F32.fin_mul_fin, round32_eq_fin_of_nonneg q3 (le_trans q3u (p100 68 (by norm_num)))]
  -- p = t3 + c2
  have a3 : (0 : ℚ) ≤ x * (x * PathTracerWindow.A + c1) := by positivity
  have n4 := near_add' a3 hc2 (by norm_num) (by norm_num) n3 h2
  have q4 : (0 : ℚ) ≤ rnd (x * rnd (rnd (x * (5033165 / 33554432)) + d1)) + d2 := by
    have := rnd_nonneg q3; linarith
  have q4u : rnd (x * rnd (rnd (x * (5033165 / 33554432)) + d1)) + d2 ≤ 2 ^ 70 := by
    have : (2 : ℚ) * 2 ^ 68 + 1 + 2 ≤ 2 ^ 70 := by norm_num
    linarith
  refine ⟨rnd (rnd (x * rnd (rnd (x * (5033165 / 33554432)) + d1)) + d2), ?_, ?_⟩
  · rw [e3, F32.fin_add_fin, round32_eq_fin_of_nonneg q4 (le_trans q4u (p100 70 (by norm_num)))]
  · have e : (1 + 2 + 2 + 2 + 2 : ℚ) = 9 := by norm_num
    rw [e] at n4
    exact n4

theorem quot_near {pN pD N Dn : ℚ} (hN : 0 < N) (hND : N ≤ Dn)
    (nN : |pN - N| ≤ 9 * (1 / 2 ^ 24) * N) (nD : |pD - Dn| ≤ 9 * (1 / 2 ^ 24) * Dn) :
    0 < pD ∧ 0 ≤ pN ∧ |pN / pD - N / Dn| ≤ 19 / 2 ^ 24 := by
  have hD : 0 < Dn := lt_of_lt_of_le hN hND
  obtain ⟨nN1, nN2⟩ := abs_le.mp nN
  obtain ⟨nD1, nD2⟩ := abs_le.mp nD
  have hpD : 0 < pD := by nlinarith
  have hpN : 0 ≤ pN := by nlinarith
  refine ⟨hpD, hpN, ?_⟩
  rw [div_sub_div _ _ (ne_of_gt hpD) (ne_of_gt hD), abs_div,
    abs_of_pos (mul_pos hpD hD), div_le_iff₀ (mul_pos hpD hD)]
  have f1 : (pN - N) * Dn ≤ 9 * (1 / 2 ^ 24) * N * Dn :=
    mul_le_mul_of_nonneg_right nN2 (le_of_lt hD)
  have f2 : -(9 * (1 / 2 ^ 24) * N) * Dn ≤ (pN - N) * Dn :=
    mul_le_mul_of_nonneg_right nN1 (le_of_lt hD)
  have f3 : (pD - Dn) * N ≤ 9 * (1 / 2 ^ 24) * Dn * N :=
    mul_le_mul_of_nonneg_right nD2 (le_of_lt hN)
  have f4 : -(9 * (1 / 2 ^ 24) * Dn) * N ≤ (pD - Dn) * N :=
    mul_le_mul_of_nonneg_right nD1 (le_of_lt hN)
  have f5 : N * Dn ≤ Dn * Dn := mul_le_mul_of_nonneg_right hND (le_of_lt hD)
  have f6 : (1 - 9 * (1 / 2 ^ 24)) * Dn * Dn ≤ pD * Dn :=
    mul_le_mul_of_nonneg_right (by linarith) (le_of_lt hD)
  have f7 : 0 ≤ Dn * Dn := mul_nonneg (le_of_lt hD) (le_of_lt hD)
  rw [abs_le]
  constructor <;> ring_nf at f1 f2 f3 f4 f5 f6 f7 ⊢ <;> linarith

/-- Accuracy of the binary32 evaluation of the curve: for a curve argument between 0 and 2^32
the result is finite and within 2^-19 of the exact value, and the denominator is a positive
finite number. -/
theorem channel_near {x : ℚ} (hx0 : 0 ≤ x) (hx : x ≤ 2 ^ 32) :
    ∃ d r, F32.fin x * (A * F32.fin x + B) + D * F = F32.fin d ∧ 0 < d
      ∧ Uncharted2TonemapChannel (F32.fin x) = F32.fin r
      ∧ |r - specCurve x| ≤ 1 / 2 ^ 19 := by
  have hu : u32 = 1 / 2 ^ 24 := rfl
  have he : eta32 = 1 / 2 ^ 150 := rfl
  obtain ⟨pN, hN, nN⟩ := poly_near (PathTracerWindow.C * PathTracerWindow.B)
    (PathTracerWindow.D * PathTracerWindow.E) (13421773 / 268435456)
    (8589935 / 2147483648) hx0 hx
    (by norm_num [PathTracerWindow.C, PathTracerWindow.B])
    (by norm_num [PathTracerWindow.C, PathTracerWindow.B])
    (by norm_num [PathTracerWindow.D, PathTracerWindow.E])
    (by norm_num [PathTracerWindow.D, PathTracerWindow.E])
    (by norm_num [PathTracerWindow.C, PathTracerWindow.B, abs_le, u32])
    (by norm_num [PathTracerWindow.D, PathTracerWindow.E, abs_le, u32])
  obtain ⟨pD, hD, nD⟩ := poly_near PathTracerWindow.B
    (PathTracerWindow.D * PathTracerWindow.F) (1 / 2)
    (1006633 / 16777216) hx0 hx
    (by norm_num [PathTracerWindow.B])
    (by norm_num [PathTracerWindow.B])
    (by norm_num [PathTracerWindow.D, PathTracerWindow.F])
    (by norm_num [PathTracerWindow.D, PathTracerWindow.F])
    (by norm_num [PathTracerWindow.B, abs_le, u32])
    (by norm_num [PathTracerWindow.D, PathTracerWindow.F, abs_le, u32])
  rw [← CB_eq, ← DE_eq] at hN
  rw [← B_eq, ← DF_eq] at hD
  -- the exact numerator and denominator
  obtain ⟨N, hNdef⟩ : ∃ N : ℚ, N = x * (x * PathTracerWindow.A
    + PathTracerWindow.C * PathTracerWindow.B) + PathTracerWindow.D * PathTracerWindow.E :=
    ⟨_, rfl⟩
  obtain ⟨Dn, hDdef⟩ : ∃ Dn : ℚ, Dn = x * (x * PathTracerWindow.A + PathTracerWindow.B)
    + PathTracerWindow.D * PathTracerWindow.F := ⟨_, rfl⟩
  rw [← hNdef] at nN
  rw [← hDdef] at nD
  have hNpos : 0 < N := by
    rw [hNdef]; norm_num [PathTracerWindow.A, PathTracerWindow.B, PathTracerWindow.C,
      PathTracerWindow.D, PathTracerWindow.E]
    nlinarith [mul_nonneg hx0 hx0]
  have hND : N ≤ Dn := by
    rw [hNdef, hDdef]; norm_num [PathTracerWindow.A, PathTracerWindow.B, PathTracerWindow.C,
      PathTracerWindow.D, PathTracerWindow.E, PathTracerWindow.F]
    nlinarith [mul_nonneg hx0 hx0]
  have hDpos : 0 < Dn := lt_of_lt_of_le hNpos hND
  rw [hu] at nN nD
  obtain ⟨hpD, hpN, hquot⟩ := quot_near hNpos hND nN nD
  have hspec : specCurve x = N / Dn - PathTracerWindow.E / PathTracerWindow.F := by
    rw [hNdef, hDdef]; unfold specCurve; ring_nf
  have hQ1 : N / Dn ≤ 1 := (div_le_one hDpos).mpr hND
  have hQ0 : 0 ≤ N / Dn := div_nonneg (le_of_lt hNpos) (le_of_lt hDpos)
  obtain ⟨hq1, hq2⟩ := abs_le.mp hquot
  have hq0 : 0 ≤ pN / pD := div_nonneg hpN (le_of_lt hpD)
  have hqu : pN / pD ≤ 2 := by
    have : (19 : ℚ) / 2 ^ 24 ≤ 1 := by norm_num
    linarith
  -- the rounded quotient
  have e4 : (F32.fin x * (A * F32.fin x + C * B) + D * E)
      / (F32.fin x * (A * F32.fin x + B) + D * F) = F32.fin (rnd (pN / pD)) := by
    rw [hN, hD, F32.fin_div_fin (ne_of_gt hpD),
      round32_eq_fin_of_nonneg hq0 (le_trans hqu (by norm_num))]
  have r4 := rnd_near (pN / pD)
  rw [abs_of_nonneg hq0, hu, he] at r4
  obtain ⟨r41, r42⟩ := abs_le.mp r4
  have b4 := rnd_nonneg hq0
  have b4u : rnd (pN / pD) ≤ 3 / 2 := by
    have : pN / pD * (1 / 2 ^ 24) ≤ 2 * (1 / 2 ^ 24) :=
      mul_le_mul_of_nonneg_right hqu (by positivity)
    have : (19 : ℚ) / 2 ^ 24 + 2 * (1 / 2 ^ 24) + 1 / 2 ^ 150 ≤ 1 / 2 := by norm_num
    linarith
  -- the subtraction
  have habs5 : |rnd (pN / pD) + -(1118481 / 16777216 : ℚ)| ≤ 2 := by
    rw [abs_le]; constructor <;> norm_num <;> linarith
  have e5 : Uncharted2TonemapChannel (F32.fin x)
      = F32.fin (rnd (rnd (pN / pD) + -(1118481 / 16777216))) := by
    unfold Uncharted2TonemapChannel
    rw [e4, EF_eq, F32.fin_sub_fin, round32_eq_fin (le_trans habs5 (by norm_num))]
  have r5 := rnd_near (rnd (pN / pD) + -(1118481 / 16777216))
  rw [hu, he] at r5
  have r5b : |rnd (rnd (pN / pD) + -(1118481 / 16777216))
      - (rnd (pN / pD) + -(1118481 / 16777216))| ≤ 2 * (1 / 2 ^ 24) + 1 / 2 ^ 150 := by
    have : |rnd (pN / pD) + -(1118481 / 16777216 : ℚ)| * (1 / 2 ^ 24) ≤ 2 * (1 / 2 ^ 24) :=
      mul_le_mul_of_nonneg_right habs5 (by positivity)
    linarith
  obtain ⟨r51, r52⟩ := abs_le.mp r5b
  have hEF : |(1118481 / 16777216 : ℚ) - PathTracerWindow.E / PathTracerWindow.F|
      ≤ 1 / 2 ^ 24 := by
    norm_num [PathTracerWindow.E, PathTracerWindow.F, abs_le]
  obtain ⟨hEF1, hEF2⟩ := abs_le.mp hEF
  have hsmall : pN / pD * (1 / 2 ^ 24) ≤ 2 * (1 / 2 ^ 24) :=
    mul_le_mul_of_nonneg_right hqu (by positivity)
  have hsmall0 : 0 ≤ pN / pD * (1 / 2 ^ 24) := by positivity
  have hnum : (2 : ℚ) * (1 / 2 ^ 24) + 1 / 2 ^ 150 + (2 * (1 / 2 ^ 24) + 1 / 2 ^ 150)
      + 19 / 2 ^ 24 + 1 / 2 ^ 24 ≤ 1 / 2 ^ 19 := by norm_num
  refine ⟨pD, _, hD, hpD, e5, ?_⟩
  rw [hspec, abs_le]
  constructor <;> linarith

end Binary32

end PathTracerWindow

theorem rnd_one : rnd 1 = 1 := by decide!

theorem rnd_two : rnd 2 = 2 := by decide!

/-- Rounding of a non-negative number below a binary32 number `h`: finite and at most `h`. -/
theorem round32_mem {q h : ℚ} (h0 : 0 ≤ q) (hq : q ≤ h) (hfix : rnd h = h)
    (hh : h ≤ 2 ^ 100) : round32 q = F32.fin (rnd q) ∧ 0 ≤ rnd q ∧ rnd q ≤ h :=
  ⟨round32_eq_fin_of_nonneg h0 (le_trans hq hh), rnd_nonneg h0,
    by have := rnd_mono h0 hq; rwa [hfix] at this⟩

namespace PathTracerWindow

namespace Binary32

theorem powVal_eq : powVal = F32.fin (7626007 / 16777216) := by decide!

theorem sixteen_eq : round32 16.0 = F32.fin 16 := by decide!

theorem zero_eq : round32 0.0 = F32.fin 0 := by decide!

theorem one_eq : round32 1.0 = F32.fin 1 := by decide!

theorem exposureBias_eq : ExposureBias = F32.fin 2 := by decide!

theorem whiteScale_eq :
    round32 1.0 / Uncharted2TonemapChannel W = F32.fin (5784215 / 4194304) := by decide!

theorem pow_notNegative (x : F32) : (pow x powVal).NotNegative := by
  rw [powVal_eq]
  cases x with
  | fin a =>
    simp only [pow]
    split_ifs with h
    · trivial
    · exact Real.rpow_nonneg (by exact_mod_cast not_lt.mp h) _
  | pinf => trivial
  | ninf => trivial
  | nan => trivial

theorem pow_inUnit {a : ℚ} (h0 : 0 ≤ a) (h1 : a ≤ 1) : (pow (F32.fin a) powVal).InUnit := by
  rw [powVal_eq]
  simp only [pow, if_neg (not_lt.mpr h0)]
  exact ⟨_, rfl, Real.rpow_nonneg (by exact_mod_cast h0) _,
    Real.rpow_le_one (by exact_mod_cast h0) (by exact_mod_cast h1) (by norm_num)⟩

theorem pow_nanOrUnit {a : ℚ} (h1 : a ≤ 1) : (pow (F32.fin a) powVal).NanOrUnit := by
  by_cases h0 : 0 ≤ a
  · exact Or.inr (pow_inUnit h0 h1)
  · left
    rw [powVal_eq]
    simp only [pow, if_pos (not_le.mp h0)]

/-- The exposure step on a channel in [0, 1/16]: a finite value in [0,1]. -/
theorem exposure_mem {c : ℚ} (h0 : 0 ≤ c) (h1 : c ≤ 1 / 16) :
    F32.fin c * round32 16.0 = F32.fin (rnd (c * 16)) ∧ 0 ≤ rnd (c * 16)
      ∧ rnd (c * 16) ≤ 1 := by
  rw [sixteen_eq, F32.fin_mul_fin]
  exact round32_mem (by positivity) (by linarith) rnd_one (by norm_num)

theorem clampf_unit {c : ℚ} (h0 : 0 ≤ c) (h1 : c ≤ 1) :
    clampf (F32.fin c) (round32 0.0) (round32 1.0) = F32.fin c := by
  rw [zero_eq, one_eq]
  simp [clampf, fmax, fmin, F32.lt, not_lt.mpr h0, not_lt.mpr h1]

end Binary32

end PathTracerWindow

theorem rnd_four : rnd 4 = 4 := by decide!

theorem rnd_eight : rnd 8 = 8 := by decide!

namespace PathTracerWindow

namespace Binary32

theorem k1_eq : round32 0.212671 = F32.fin (14272109 / 67108864) := by decide!

theorem k2_eq : round32 0.71516 = F32.fin (5999197 / 8388608) := by decide!

theorem k3_eq : round32 0.072169 = F32.fin (9686359 / 134217728) := by decide!

/-- The binary32 luminance of a colour with components in [0,1]: a binary32 number in [0,4]. -/
theorem luminance_mem {r g b : ℚ} (hr : 0 ≤ r ∧ r ≤ 1) (hg : 0 ≤ g ∧ g ≤ 1)
    (hb : 0 ≤ b ∧ b ≤ 1) :
    ∃ l, luminanceOf ⟨F32.fin r, F32.fin g, F32.fin b⟩ = F32.fin l ∧ 0 ≤ l ∧ l ≤ 4
      ∧ rnd l = l := by
  obtain ⟨e1, p1, q1⟩ := round32_mem (q := 14272109 / 67108864 * r) (h := 1)
    (mul_nonneg (by norm_num) hr.1) (by nlinarith [hr.1, hr.2]) rnd_one (by norm_num)
  obtain ⟨e2, p2, q2⟩ := round32_mem (q := 5999197 / 8388608 * g) (h := 1)
    (mul_nonneg (by norm_num) hg.1) (by nlinarith [hg.1, hg.2]) rnd_one (by norm_num)
  obtain ⟨e3, p3, q3⟩ := round32_mem (q := 9686359 / 134217728 * b) (h := 1)
    (mul_nonneg (by norm_num) hb.1) (by nlinarith [hb.1, hb.2]) rnd_one (by norm_num)
  obtain ⟨e4, p4, q4⟩ := round32_mem
    (q := rnd (14272109 / 67108864 * r) + rnd (5999197 / 8388608 * g)) (h := 2)
    (by linarith) (by linarith) rnd_two (by norm_num)
  obtain ⟨e5, p5, q5⟩ := round32_mem
    (q := rnd (rnd (14272109 / 67108864 * r) + rnd (5999197 / 8388608 * g))
      + rnd (9686359 / 134217728 * b)) (h := 4)
    (by linarith) (by linarith) rnd_four (by norm_num)
  refine ⟨_, ?_, p5, q5, rnd_rnd (by linarith)⟩
  unfold luminanceOf
  simp only
  rw [k1_eq, k2_eq, k3_eq, F32.fin_mul_fin, F32.fin_mul_fin, F32.fin_mul_fin, e1, e2, e3,
    F32.fin_add_fin, e4, F32.fin_add_fin, e5]

/-- The Reinhard rescaling of a channel value `v` in [0,1] by a binary32 luminance `l`: a NaN
when the luminance is zero, a finite value in [0,1] otherwise. -/
theorem reinhard_channel_mem {l v : ℚ} (hl0 : 0 ≤ l) (hl4 : l ≤ 4) (hfix : rnd l = l)
    (hv0 : 0 ≤ v) (hv1 : v ≤ 1) :
    (l = 0 → F32.fin l / (round32 1.0 + F32.fin l) * F32.fin v / F32.fin l = F32.nan)
    ∧ (0 < l → ∃ w, F32.fin l / (round32 1.0 + F32.fin l) * F32.fin v / F32.fin l = F32.fin w
        ∧ 0 ≤ w ∧ w ≤ 1) := by
  obtain ⟨es, ps, qs⟩ := round32_mem (q := 1 + l) (h := 8) (by linarith) (by linarith)
    rnd_eight (by norm_num)
  have hs1 : 1 ≤ rnd (1 + l) := by
    have := rnd_mono (a := 1) (b := 1 + l) (by norm_num) (by linarith)
    rwa [rnd_one] at this
  have hsne : rnd (1 + l) ≠ 0 := by linarith
  have hdq : l / rnd (1 + l) ≤ l := div_le_self hl0 hs1
  obtain ⟨ed, pd, qd⟩ := round32_mem (q := l / rnd (1 + l)) (h := l)
    (div_nonneg hl0 (by linarith)) hdq hfix (by linarith [show (4 : ℚ) ≤ 2 ^ 100 by norm_num])
  have hmq : rnd (l / rnd (1 + l)) * v ≤ l := by nlinarith
  obtain ⟨em, pm, qm⟩ := round32_mem (q := rnd (l / rnd (1 + l)) * v) (h := l)
    (mul_nonneg pd hv0) hmq hfix (by linarith [show (4 : ℚ) ≤ 2 ^ 100 by norm_num])
  have hpre : F32.fin l / (round32 1.0 + F32.fin l) * F32.fin v
      = F32.fin (rnd (rnd (l / rnd (1 + l)) * v)) := by
    rw [one_eq, F32.fin_add_fin, es, F32.fin_div_fin hsne, ed, F32.fin_mul_fin, em]
  rw [hpre]
  constructor
  · intro h0
    have hz : rnd (rnd (l / rnd (1 + l)) * v) = 0 := by
      have : rnd (rnd (l / rnd (1 + l)) * v) ≤ 0 := le_trans qm (le_of_eq h0)
      linarith
    rw [hz, h0]
    rfl
  · intro hpos
    obtain ⟨ew, pw, qw⟩ := round32_mem (q := rnd (rnd (l / rnd (1 + l)) * v) / l) (h := 1)
      (div_nonneg pm hl0) ((div_le_one hpos).mpr qm) rnd_one (by norm_num)
    exact ⟨_, by rw [F32.fin_div_fin (ne_of_gt hpos), ew], pw, qw⟩

/-- The Uncharted branch on a channel in [0, 1/16]: a finite pre-gamma value that is at most
1. -/
theorem uncharted_channel_mem {c : ℚ} (h0 : 0 ≤ c) (h1 : c ≤ 1 / 16) :
    ∃ t, Uncharted2TonemapChannel (ExposureBias * (F32.fin c * round32 16.0))
        * (round32 1.0 / Uncharted2TonemapChannel W) = F32.fin t ∧ t ≤ 1 := by
  obtain ⟨ev, pv, qv⟩ := exposure_mem h0 h1
  obtain ⟨ex, px, qx⟩ := round32_mem (q := 2 * rnd (c * 16)) (h := 2) (by linarith)
    (by linarith) rnd_two (by norm_num)
  obtain ⟨d, r, -, -, er, nr⟩ := channel_near px
    (le_trans qx (by norm_num))
  have hmono := specCurve_mono px qx
  have h2 : specCurve 2 = 89 / 249 := by
    norm_num [specCurve, PathTracerWindow.A, PathTracerWindow.B, PathTracerWindow.C,
      PathTracerWindow.D, PathTracerWindow.E, PathTracerWindow.F]
  have hnn := specCurve_nonneg px
  obtain ⟨nr1, nr2⟩ := abs_le.mp nr
  have hr1 : r ≤ 1 / 2 := by
    rw [h2] at hmono
    have : (89 : ℚ) / 249 + 1 / 2 ^ 19 ≤ 1 / 2 := by norm_num
    linarith
  have hr0 : -(1 / 2) ≤ r := by
    have : (1 : ℚ) / 2 ^ 19 ≤ 1 / 2 := by norm_num
    linarith
  have habs : |r * (5784215 / 4194304)| ≤ 2 ^ 100 := by
    rw [abs_le]
    constructor
    · have : -(2 : ℚ) ^ 100 ≤ -1 := by norm_num
      nlinarith
    · have : (1 : ℚ) ≤ 2 ^ 100 := by norm_num
      nlinarith
  refine ⟨rnd (r * (5784215 / 4194304)), ?_, ?_⟩
  · rw [ev, exposureBias_eq, F32.fin_mul_fin, ex, er, whiteScale_eq, F32.fin_mul_fin,
      round32_eq_fin habs]
  · by_cases hneg : r * (5784215 / 4194304) ≤ 0
    · have := rnd_nonpos hneg
      linarith
    · have := rnd_mono (a := r * (5784215 / 4194304)) (b := 1) (le_of_lt (not_le.mp hneg))
        (by nlinarith)
      rwa [rnd_one] at this

theorem specCurve_le_one {x : ℚ} (hx : 0 ≤ x) : specCurve x ≤ 1 := by
  have hd := curve_den_pos hx
  have hq : (x * (PathTracerWindow.A * x + PathTracerWindow.C * PathTracerWindow.B)
      + PathTracerWindow.D * PathTracerWindow.E)
      / (x * (PathTracerWindow.A * x + PathTracerWindow.B)
      + PathTracerWindow.D * PathTracerWindow.F) ≤ 1 := by
    rw [div_le_one hd]
    norm_num [PathTracerWindow.A, PathTracerWindow.B, PathTracerWindow.C,
      PathTracerWindow.D, PathTracerWindow.E, PathTracerWindow.F]
    nlinarith [mul_nonneg hx hx]
  have he : 0 ≤ PathTracerWindow.E / PathTracerWindow.F := by
    norm_num [PathTracerWindow.E, PathTracerWindow.F]
  unfold specCurve
  linarith

/-- The curve argument that the Uncharted branch computes from a colour channel in
[0, 2^20]: finite, non-negative, at most 2^32, and monotone in the channel. -/
theorem curve_argument_mem {c : ℚ} (h0 : 0 ≤ c) (h1 : c ≤ 2 ^ 20) :
    ExposureBias * (F32.fin c * round32 16.0) = F32.fin (rnd (2 * rnd (c * 16)))
      ∧ 0 ≤ rnd (2 * rnd (c * 16)) ∧ rnd (2 * rnd (c * 16)) ≤ 2 ^ 32 := by
  have q1 : (0 : ℚ) ≤ c * 16 := by positivity
  have b1 := rnd_nonneg q1
  have b1u := rnd_le_two_mul_add_one q1
  have q2 : (0 : ℚ) ≤ 2 * rnd (c * 16) := by positivity
  have b2u := rnd_le_two_mul_add_one q2
  have n1 : (2 : ℚ) * (2 ^ 20 * 16) + 1 ≤ 2 ^ 26 := by norm_num
  have n2 : (2 : ℚ) * (2 * 2 ^ 26) + 1 ≤ 2 ^ 32 := by norm_num
  have n3 : (2 : ℚ) ^ 32 ≤ 2 ^ 100 := by norm_num
  refine ⟨?_, rnd_nonneg q2, by linarith⟩
  rw [sixteen_eq, exposureBias_eq, F32.fin_mul_fin, round32_eq_fin_of_nonneg q1 (by linarith),
    F32.fin_mul_fin, round32_eq_fin_of_nonneg q2 (by linarith)]

theorem curve_argument_mono {c₁ c₂ : ℚ} (h0 : 0 ≤ c₁) (h : c₁ ≤ c₂) :
    rnd (2 * rnd (c₁ * 16)) ≤ rnd (2 * rnd (c₂ * 16)) := by
  have q1 : (0 : ℚ) ≤ c₁ * 16 := by positivity
  have m1 := rnd_mono q1 (by linarith : c₁ * 16 ≤ c₂ * 16)
  have b1 := rnd_nonneg q1
  exact rnd_mono (by positivity) (by linarith)

/-- Accuracy of the Uncharted branch of the pass in binary32: for a colour channel in [0, 2^20]
the value that reaches the gamma correction is finite and within 2^-18 of the exact curve value
at the computed argument, times the white scale. -/
theorem tone_channel_near {c : ℚ} (h0 : 0 ≤ c) (h1 : c ≤ 2 ^ 20) :
    ∃ v, Uncharted2TonemapChannel (ExposureBias * (F32.fin c * round32 16.0))
        * (round32 1.0 / Uncharted2TonemapChannel W) = F32.fin v
      ∧ |v - specCurve (rnd (2 * rnd (c * 16))) * (5784215 / 4194304)| ≤ 1 / 2 ^ 18 := by
  obtain ⟨ex, px, qx⟩ := curve_argument_mem h0 h1
  obtain ⟨d, r, -, -, er, nr⟩ := channel_near px qx
  have hs1 := specCurve_le_one px
  have hs0 := specCurve_nonneg px
  obtain ⟨f, hf⟩ : ∃ f, f = specCurve (rnd (2 * rnd (c * 16))) := ⟨_, rfl⟩
  rw [← hf] at nr hs1 hs0 ⊢
  obtain ⟨nr1, nr2⟩ := abs_le.mp nr
  have hsm : (1 : ℚ) / 2 ^ 19 ≤ 1 / 16 := by norm_num
  have habs2 : |r * (5784215 / 4194304)| ≤ 2 := by
    rw [abs_le]; constructor <;> nlinarith
  have hr := rnd_near (r * (5784215 / 4194304))
  have hu : u32 = 1 / 2 ^ 24 := rfl
  have he : eta32 = 1 / 2 ^ 150 := rfl
  rw [hu, he] at hr
  have hrb : |rnd (r * (5784215 / 4194304)) - r * (5784215 / 4194304)|
      ≤ 2 * (1 / 2 ^ 24) + 1 / 2 ^ 150 := by
    have : |r * (5784215 / 4194304)| * (1 / 2 ^ 24) ≤ 2 * (1 / 2 ^ 24) :=
      mul_le_mul_of_nonneg_right habs2 (by positivity)
    linarith
  obtain ⟨hr1, hr2⟩ := abs_le.mp hrb
  have hnum : (1 : ℚ) / 2 ^ 19 * (5784215 / 4194304) + (2 * (1 / 2 ^ 24) + 1 / 2 ^ 150)
      ≤ 1 / 2 ^ 18 := by norm_num
  refine ⟨rnd (r * (5784215 / 4194304)), ?_, ?_⟩
  · rw [ex, er, whiteScale_eq, F32.fin_mul_fin,
      round32_eq_fin (le_trans habs2 (by norm_num))]
  · rw [abs_le]
    constructor <;> nlinarith

theorem pow_gt_one {a : ℚ} (h : 1 < a) :
    ∃ v : ℝ, pow (F32.fin a) powVal = Shown.val v ∧ 1 < v := by
  rw [powVal_eq]
  simp only [pow, if_neg (not_lt.mpr (le_of_lt (lt_trans zero_lt_one h)))]
  exact ⟨_, rfl, Real.one_lt_rpow (by exact_mod_cast h) (by norm_num)⟩

/-- At the colour (1,1,1), in binary32 arithmetic, the red component handed to
`image.setPixel` is greater than 1 in each of the three modes. -/
theorem display_exceeds_one_binary32 :
    (∃ v : ℝ, (displayColor ToneMapping.LINEAR ⟨F32.fin 1, F32.fin 1, F32.fin 1⟩).r
        = Shown.val v ∧ 1 < v)
    ∧ (∃ v : ℝ, (displayColor ToneMapping.GLOBAL_REINHARD
        ⟨F32.fin 1, F32.fin 1, F32.fin 1⟩).r = Shown.val v ∧ 1 < v)
    ∧ (∃ v : ℝ, (displayColor ToneMapping.UNCHARTED_2
        ⟨F32.fin 1, F32.fin 1, F32.fin 1⟩).r = Shown.val v ∧ 1 < v) := by
  have h1 : (toneMap ToneMapping.LINEAR ⟨F32.fin 1, F32.fin 1, F32.fin 1⟩).r = F32.fin 16 := by
    decide!
  have h2 : (toneMap ToneMapping.GLOBAL_REINHARD ⟨F32.fin 1, F32.fin 1, F32.fin 1⟩).r
      = F32.fin 8 := by decide!
  have h3 : (toneMap ToneMapping.UNCHARTED_2 ⟨F32.fin 1, F32.fin 1, F32.fin 1⟩).r
      = F32.fin (4905753 / 4194304) := by decide!
  refine ⟨?_, ?_, ?_⟩
  · show ∃ v : ℝ, pow (toneMap _ _).r powVal = _ ∧ _
    rw [h1]; exact pow_gt_one (by norm_num)
  · show ∃ v : ℝ, pow (toneMap _ _).r powVal = _ ∧ _
    rw [h2]; exact pow_gt_one (by norm_num)
  · show ∃ v : ℝ, pow (toneMap _ _).r powVal = _ ∧ _
    rw [h3]; exact pow_gt_one (by norm_num)

end Binary32

end PathTracerWindow

namespace PathTracerWindow

end PathTracerWindow
